import Mathlib

/-!
Verification of the stream multiplexing / demultiplexing engine of
record-streams (src/index.js).

Byte buffers are modelled as `List Nat` (each element one byte value).
The multiplexer is modelled as a state machine driven by a trace of
source events; the periodic one-second checksum tick (setInterval) is
applied automatically before each event, exactly at the times
t0 + 1000, t0 + 2000, ... .  The demultiplexer is modelled as a
function consuming one complete input buffer with realtime playback
disabled, mirroring `demultiplexStream` fed by a single data event
(as `demultiplexBuffer` does).

The collaborators that are not part of the sources (src/crc16,
src/parser, src/errors) are modelled from the spec; each such
definition carries a doc comment saying so.
-/

def protocolVersion : Nat := 1

def streamIdOffset : Nat := 1

/-- Modelled from the spec: the external 16-bit checksum primitive
`checksum(bytes, seed) -> uint16` (src/crc16 is not among the sources).
It is a deterministic pure fold over the bytes, seedable with a prior
checksum so that checksums chain across successive writes, and its
result on a nonempty input is always below 65536. -/
def crc16 (bytes : List Nat) (seed : Nat) : Nat :=
  bytes.foldl (fun a b => (a * 33 + b + 1) % 65536) seed

/-- Make a buffer composed of one UInt8 (mkBuf8 in src/index.js). -/
def mkBuf8 (data : Nat) : List Nat := [data % 256]

/-- Make a buffer composed of one UInt16LE (mkBuf16le in src/index.js). -/
def mkBuf16le (data : Nat) : List Nat := [data % 256, data / 256 % 256]

/-- Make a buffer composed of one UInt32LE (mkBuf32le in src/index.js). -/
def mkBuf32le (data : Nat) : List Nat :=
  [data % 256, data / 256 % 256, data / 65536 % 256, data / 16777216 % 256]

/-- Modelled from the spec: mkBufFloatLe writes the session timestamp as a
4-byte little-endian float field.  Only its width matters here: the
demultiplexer never uses the decoded value, so we model the field as four
bytes derived from the timestamp. -/
def mkBufFloatLe (data : Nat) : List Nat := mkBuf32le data

/-- Decimal ASCII digits of a natural number. -/
def decDigits (n : Nat) : List Nat :=
  if h : n < 10 then [48 + n] else decDigits (n / 10) ++ [48 + n % 10]
termination_by n
decreasing_by
  exact Nat.div_lt_self (by omega) (by omega)

/-- ASCII bytes of JSON.stringify applied to the StreamMeta record of a
stream: the literal text of an object with single field id, as produced
by mkStreamMetaBuf in src/index.js. -/
def jsonBytes (id : Nat) : List Nat :=
  [123, 34, 105, 100, 34, 58] ++ decDigits id ++ [125]

/-- Compose a StreamMeta buffer (mkStreamMetaBuf in src/index.js):
id byte, 4-byte little-endian payload length, then the JSON payload. -/
def mkStreamMetaBuf (id : Nat) : List Nat :=
  mkBuf8 id ++ mkBuf32le (jsonBytes id).length ++ jsonBytes id

/-- mkStreamChunkBuf from src/index.js: while the chunk is longer than 255
bytes the last 255 bytes are peeled off as a continuation frame with
offset 0 and prepended to the continuation buffer; the head frame
(4-byte start: streamId, 16-bit offset, length byte) carries the
remaining bytes and the true offset. -/
def mkStreamChunkBuf (chunk : List Nat) (streamId offset : Nat) : List Nat :=
  if h : chunk.length > 255 then
    mkStreamChunkBuf (chunk.take (chunk.length - 255)) streamId offset
      ++ mkStreamChunkBuf (chunk.drop (chunk.length - 255)) streamId 0
  else
    mkBuf8 streamId ++ mkBuf16le offset ++ mkBuf8 chunk.length ++ chunk
termination_by chunk.length
decreasing_by
  · simp only [List.length_take]; omega
  · simp only [List.length_drop]; omega

/-- mkStreamCrcBuf from src/index.js: stream id 0, 16-bit offset,
16-bit checksum. -/
def mkStreamCrcBuf (offset crc : Nat) : List Nat :=
  mkBuf8 0 ++ mkBuf16le offset ++ mkBuf16le crc

/-- A decoded frame of the post-header wire format. -/
inductive Chunk where
  | ctrl (offset crc : Nat)
  | dataC (streamId offset : Nat) (payload : List Nat)
deriving DecidableEq, Repr

def Chunk.streamId : Chunk → Nat
  | .ctrl _ _ => 0
  | .dataC sid _ _ => sid

def Chunk.offsetOf : Chunk → Nat
  | .ctrl off _ => off
  | .dataC _ off _ => off

def Chunk.crcOf : Chunk → Nat
  | .ctrl _ c => c
  | .dataC _ _ _ => 0

def Chunk.payloadOf : Chunk → List Nat
  | .ctrl _ _ => []
  | .dataC _ _ p => p

/-- Byte encoding of one frame, as written by the multiplexer. -/
def encodeChunk : Chunk → List Nat
  | .ctrl off c => mkStreamCrcBuf off c
  | .dataC sid off p => mkBuf8 sid ++ mkBuf16le off ++ mkBuf8 p.length ++ p

/-- The frames that mkStreamChunkBuf lays out for one source write:
the head frame first (true offset), then the continuation frames
in original byte order, each with offset 0. -/
def chunkFrames (chunk : List Nat) (streamId offset : Nat) : List Chunk :=
  if h : chunk.length > 255 then
    chunkFrames (chunk.take (chunk.length - 255)) streamId offset
      ++ [Chunk.dataC streamId 0 (chunk.drop (chunk.length - 255))]
  else
    [Chunk.dataC streamId offset chunk]
termination_by chunk.length
decreasing_by
  simp only [List.length_take]; omega

/-- chunkBufSize from src/index.js. -/
def chunkBufSize (c : Chunk) : Nat :=
  3 + (if c.streamId = 0 then 2 else c.payloadOf.length + 1)

/-- Modelled from the spec: streamChunkParser (src/parser is not among the
sources) decodes one frame from the front of a buffer: a leading stream
id byte, a 16-bit little-endian offset, then either a 16-bit checksum
(id 0) or a length byte followed by that many payload bytes; it fails
when the buffer does not yet contain a full frame. -/
def streamChunkParser (b : List Nat) : Option Chunk :=
  match b with
  | id :: o1 :: o2 :: rest =>
    if id = 0 then
      match rest with
      | c1 :: c2 :: _ => some (.ctrl (o1 + 256 * o2) (c1 + 256 * c2))
      | _ => none
    else
      match rest with
      | len :: rest2 =>
        if len ≤ rest2.length then some (.dataC id (o1 + 256 * o2) (rest2.take len))
        else none
      | [] => none
  | _ => none

/-- One StreamMeta record as decoded by the header parser. -/
structure MetaRec where
  streamId : Nat
  metaLen : Nat
  metaString : List Nat
deriving DecidableEq, Repr

/-- The decoded header. -/
structure HeadRec where
  headerLen : Nat
  streamCount : Nat
  tsBytes : List Nat
  meta : List MetaRec
  crc : Nat
deriving DecidableEq, Repr

/-- Modelled from the spec: the per-stream part of the header parser:
for each declared stream an id byte, a 4-byte little-endian metadata
length, and that many metadata bytes. -/
def parseMetas : Nat → List Nat → Option (List MetaRec × List Nat)
  | 0, b => some ([], b)
  | n + 1, b =>
    match b with
    | id :: l1 :: l2 :: l3 :: l4 :: rest =>
      let len := l1 + 256 * l2 + 65536 * l3 + 16777216 * l4
      if len ≤ rest.length then
        match parseMetas n (rest.drop len) with
        | some (ms, r) => some (⟨id, len, rest.take len⟩ :: ms, r)
        | none => none
      else none
    | _ => none

/-- Modelled from the spec: headParser (src/parser is not among the
sources) reads the version byte, the 4-byte header length, the stream
count, the 4-byte timestamp, one meta record per declared stream and the
16-bit header checksum; it fails when the buffered bytes are too short or
malformed.  Its failures are wrapped into a HeaderParseError by
wrapFnException. -/
def headParser (b : List Nat) : Option HeadRec :=
  match b with
  | _v :: l1 :: l2 :: l3 :: l4 :: sc :: t1 :: t2 :: t3 :: t4 :: rest =>
    match parseMetas sc rest with
    | some (ms, c1 :: c2 :: _) =>
      some ⟨l1 + 256 * l2 + 65536 * l3 + 16777216 * l4, sc, [t1, t2, t3, t4], ms,
        c1 + 256 * c2⟩
    | _ => none
  | _ => none

/-- Modelled from the spec: success of JSON.parse on a metadata string.
The metadata is an ASCII JSON object, so we model parse success as the
string being brace-delimited. -/
def parseJSONOk (s : List Nat) : Bool :=
  match s with
  | 123 :: _ => s.getLast? == some 125
  | _ => false

/-- The error taxonomy of src/errors (modelled from the spec). -/
inductive DexError where
  | headerParse
  | crcValidation
  | jsonParse
  | typeError
deriving DecidableEq, Repr

/-! ## Multiplexer state machine -/

/-- Mutable state of one multiplexStreams session.  The fields out,
chunks and offsets are transcripts of the write calls made on the output
stream: out is the emitted chunk-section bytes, chunks the emitted frames
in order, and offsets every value passed as an offsetMillis field. -/
structure MuxState where
  lastMsgTime : Nat
  crc : Nat
  crcProcessedBytes : Nat
  streamsAlive : Nat
  canWrite : Bool
  nextTick : Nat
  listening : List Bool
  out : List Nat
  chunks : List Chunk
  offsets : List Nat
  outEnded : Bool
deriving DecidableEq, Repr

/-- maybeSendCrc from src/index.js, at time now with parameters
g = maxDataGap and w = crcBufferSize. -/
def maybeSendCrc (g w now : Nat) (s : MuxState) : MuxState :=
  if s.canWrite = false then s
  else
    let diff := now - s.lastMsgTime
    if diff > g ∨ s.crcProcessedBytes > w ∨ s.streamsAlive = 0 then
      let buf := mkStreamCrcBuf diff s.crc
      { s with lastMsgTime := now, crcProcessedBytes := 0,
               out := s.out ++ buf,
               chunks := s.chunks ++ [Chunk.ctrl diff s.crc],
               offsets := s.offsets ++ [diff],
               crc := crc16 buf s.crc }
    else s

/-- The data listener made by makeListener for source index i
(src/index.js), handling one source buffer at time now. -/
def dataStep (g w i : Nat) (payload : List Nat) (now : Nat) (s : MuxState) : MuxState :=
  if s.listening.getD i false = false then s
  else if s.canWrite = false then s
  else
    let diff := now - s.lastMsgTime
    let buf := mkStreamChunkBuf payload (i + streamIdOffset) diff
    let s1 : MuxState :=
      { s with lastMsgTime := now,
               out := s.out ++ buf,
               chunks := s.chunks ++ chunkFrames payload (i + streamIdOffset) diff,
               offsets := s.offsets ++ (chunkFrames payload (i + streamIdOffset) diff).map Chunk.offsetOf,
               crc := crc16 buf s.crc,
               crcProcessedBytes := s.crcProcessedBytes + buf.length }
    maybeSendCrc g w now s1

/-- The body of finishStream (src/index.js) without the listener
removal: decrement streamsAlive, then maybeSendCrc. -/
def rawFinishStep (g w now : Nat) (s : MuxState) : MuxState :=
  maybeSendCrc g w now { s with streamsAlive := s.streamsAlive - 1 }

/-- finishStream reached through the finish handler of source i; the
handler is gone once the listeners of that source were removed. -/
def finishStep (g w i now : Nat) (s : MuxState) : MuxState :=
  if s.listening.getD i false = false then s
  else
    let s1 := rawFinishStep g w now s
    { s1 with listening := s1.listening.set i false }

/-- stop from src/index.js, run when the output stream ends: stop
writing, cancel the tick, and run finishStream on every source. -/
def stopStep (g w now : Nat) (s : MuxState) : MuxState :=
  let s1 := { s with canWrite := false, outEnded := true }
  let s2 := (List.range s1.listening.length).foldl (fun acc _ => rawFinishStep g w now acc) s1
  { s2 with listening := s2.listening.map (fun _ => false) }

/-- Apply n pending ticks of the one-second interval, each at the time
recorded in nextTick. -/
def applyTicks (g w : Nat) : Nat → MuxState → MuxState
  | 0, s => s
  | n + 1, s =>
    let s1 := maybeSendCrc g w s.nextTick s
    applyTicks g w n { s1 with nextTick := s1.nextTick + 1000 }

/-- Number of interval ticks due at or before time t. -/
def tickCount (s : MuxState) (t : Nat) : Nat :=
  if s.nextTick ≤ t then (t - s.nextTick) / 1000 + 1 else 0

/-- Run every tick of the setInterval(maybeSendCrc, 1000) timer that is
due at or before time t. -/
def runTicks (g w t : Nat) (s : MuxState) : MuxState :=
  applyTicks g w (tickCount s t) s

/-- External events driving one multiplexer session. -/
inductive MEvent where
  | dataEv (i : Nat) (payload : List Nat) (t : Nat)
  | finishEv (i : Nat) (t : Nat)
  | stopEv (t : Nat)
deriving DecidableEq, Repr

def MEvent.time : MEvent → Nat
  | .dataEv _ _ t => t
  | .finishEv _ t => t
  | .stopEv t => t

/-- Process one event: first fire all interval ticks due by then, then
run the corresponding handler. -/
def muxStep (g w : Nat) (s : MuxState) (e : MEvent) : MuxState :=
  let s1 := runTicks g w e.time s
  match e with
  | .dataEv i p t => dataStep g w i p t s1
  | .finishEv i t => finishStep g w i t s1
  | .stopEv t => stopStep g w t s1

def muxRun (g w : Nat) (s : MuxState) (es : List MEvent) : MuxState :=
  es.foldl (muxStep g w) s

/-- State of multiplexStreams right after the header was written:
lastMsgTime = Date.now() = t0, zero checksum accumulator and byte
counter, all k sources alive and listening, first tick due at
t0 + 1000. -/
def muxInit (k t0 : Nat) : MuxState :=
  { lastMsgTime := t0, crc := 0, crcProcessedBytes := 0, streamsAlive := k,
    canWrite := true, nextTick := t0 + 1000, listening := List.replicate k true,
    out := [], chunks := [], offsets := [], outEnded := false }

/-- The header body written by multiplexStreams: stream count, 4-byte
timestamp, then one StreamMeta buffer per source with one-based ids. -/
def muxHeaderBody (k t0 : Nat) : List Nat :=
  mkBuf8 k ++ mkBufFloatLe t0
    ++ ((List.range k).map (fun i => mkStreamMetaBuf (i + streamIdOffset))).flatten

/-- headerLen as computed in multiplexStreams: body length plus
1 (version) + 4 (header len) + 2 (header CRC). -/
def muxHeaderLen (k t0 : Nat) : Nat := (muxHeaderBody k t0).length + 7

/-- The complete header section written by multiplexStreams: version
byte, header length, header body, then the CRC of the body. -/
def muxHeader (k t0 : Nat) : List Nat :=
  mkBuf8 protocolVersion ++ mkBuf32le (muxHeaderLen k t0) ++ muxHeaderBody k t0
    ++ mkBuf16le (crc16 (muxHeaderBody k t0) 0)

/-- Bytes produced by a whole multiplexStreams session over a trace of
source events. -/
def muxOutput (g w k t0 : Nat) (es : List MEvent) : List Nat :=
  muxHeader k t0 ++ (muxRun g w (muxInit k t0) es).out

/-- Event times are nondecreasing and start no earlier than t. -/
def validFrom (t : Nat) : List MEvent → Bool
  | [] => true
  | e :: es => decide (t ≤ e.time) && validFrom e.time es

/-- Stream-lifecycle discipline of a trace against the listening map l:
data and finish events only come from sources that are still attached,
a source finishes at most once and emits nothing afterwards, and the
output is never ended externally. -/
def okTrace (l : List Bool) : List MEvent → Bool
  | [] => true
  | .dataEv i _ _ :: es => l.getD i false && okTrace l es
  | .finishEv i _ :: es => l.getD i false && okTrace (l.set i false) es
  | .stopEv _ :: _ => false

/-- The sequence of buffers source i emits in a trace. -/
def writesOf (i : Nat) : List MEvent → List (List Nat)
  | [] => []
  | .dataEv j p _ :: es => if j = i then p :: writesOf i es else writesOf i es
  | _ :: es => writesOf i es

/-! ## Demultiplexer -/

/-- One reconstructed sink: the bytes written to it, the error events it
received, and whether it was ended. -/
structure SinkState where
  written : List Nat
  errs : List DexError
  ended : Bool
deriving DecidableEq, Repr

def emptySink : SinkState := { written := [], errs := [], ended := false }

def lookupSink (d : List (Nat × SinkState)) (id : Nat) : Option SinkState :=
  (d.find? (fun kv => kv.1 == id)).map (fun kv => kv.2)

def updateSink (d : List (Nat × SinkState)) (id : Nat) (p : List Nat) :
    List (Nat × SinkState) :=
  d.map (fun kv => if kv.1 = id then (kv.1, { kv.2 with written := kv.2.written ++ p }) else kv)

/-- broadcastError from src/index.js: emit the error on every sink of
the stream dictionary. -/
def broadcastAll (d : List (Nat × SinkState)) (e : DexError) : List (Nat × SinkState) :=
  d.map (fun kv => (kv.1, { kv.2 with errs := kv.2.errs ++ [e] }))

/-- endStreams from src/index.js: end every sink. -/
def endAll (d : List (Nat × SinkState)) : List (Nat × SinkState) :=
  d.map (fun kv => (kv.1, { kv.2 with ended := true }))

/-- The chunk-parsing while loop of parseBuffer (src/index.js): parse one
frame at a time, push data frames onto the pending queue, raise
CRCValidationError when a control frame disagrees with the accumulated
checksum (before folding that frame), fold the raw frame bytes into the
accumulator, and stop without error when no full frame can be parsed. -/
def parseChunksLoop (buffered : List Nat) (c : Nat) (q : List Chunk) :
    List Chunk × Nat × Option DexError × List Nat :=
  match h : streamChunkParser buffered with
  | none => (q, c, none, buffered)
  | some ch =>
    let q1 := if ch.streamId ≠ 0 then q ++ [ch] else q
    let size := chunkBufSize ch
    if ch.streamId = 0 ∧ c ≠ ch.crcOf then (q1, c, some .crcValidation, buffered)
    else parseChunksLoop (buffered.drop size) (crc16 (buffered.take size) c) q1
termination_by buffered.length
decreasing_by
  cases b : buffered with
  | nil => rw [b] at h; simp [streamChunkParser] at h
  | cons x xs =>
    simp only [List.length_drop, b, List.length_cons, chunkBufSize]
    omega

/-- The drain of processChunks with realtime playback disabled: deliver
every queued data frame to its sink in FIFO order; looking up an unknown
stream id gives the undefined-sink TypeError of
streamDict[chunk.streamId].write, aborting the drain. -/
def deliverQueue : List Chunk → List (Nat × SinkState) →
    List (Nat × SinkState) × Option DexError
  | [], d => (d, none)
  | ch :: rest, d =>
    if ch.streamId = 0 then deliverQueue rest d
    else
      match lookupSink d ch.streamId with
      | none => (d, some .typeError)
      | some _ => deliverQueue rest (updateSink d ch.streamId ch.payloadOf)

/-- Observable outcome of one demultiplexStream session. -/
structure DemuxResult where
  ready : Bool
  cbErr : Option DexError
  sinks : List (Nat × SinkState)
  inputEnded : Bool
  rethrown : Option DexError
  leftover : List Nat
deriving DecidableEq, Repr

/-- The post-callback part of one demultiplexStream session: run the
chunk-parsing loop on the bytes after the header; a chunk-stage
CRCValidationError is broadcast to every sink and the input is ended,
which fires its finish handler and ends every sink; otherwise the
pending queue is drained to the sinks, where an unknown stream id
raises the undefined-sink TypeError. -/
def chunkStage (rest : List Nat) (dict0 : List (Nat × SinkState)) : DemuxResult :=
  match parseChunksLoop rest 0 [] with
  | (_q, _cF, some e, left) => ⟨true, none, endAll (broadcastAll dict0 e), true, none, left⟩
  | (q, _cF, none, left) =>
    match deliverQueue q dict0 with
    | (d, terr) => ⟨true, none, d, false, terr, left⟩

/-- demultiplexStream (src/index.js) fed its whole input in one data
event, with realtime playback disabled, run to quiescence.

Mirrors parseBuffer / parseBufferWrapped: an empty buffer defers; a
header-parse failure is wrapped into HeaderParseError which the catch
block re-throws (it matches neither the callback condition nor the
CRCValidationError condition); a header checksum mismatch or a metadata
JSON failure is surfaced once through the callback before any sink
exists, and ends the input; on success the sinks are created and the
callback fires, then the chunk stage runs. -/
def demuxSession (buf : List Nat) : DemuxResult :=
  if buf.length = 0 then ⟨false, none, [], false, none, buf⟩
  else
    match headParser buf with
    | none => ⟨false, none, [], false, some .headerParse, buf⟩
    | some head =>
      let body := (buf.take (head.headerLen - 2)).drop 5
      let rest := buf.drop head.headerLen
      if head.crc ≠ crc16 body 0 then ⟨false, some .crcValidation, [], true, none, rest⟩
      else if head.meta.all (fun m => parseJSONOk m.metaString) = false then
        ⟨false, some .jsonParse, [], true, none, rest⟩
      else
        chunkStage rest (head.meta.map (fun m => (m.streamId, emptySink)))

/-- A chunk as it comes back out of the frame parser: the multi-byte
fields reduced to their wire width. -/
def normalizeChunk : Chunk → Chunk
  | .ctrl off c => .ctrl (off % 65536) (c % 65536)
  | .dataC sid off p => .dataC (sid % 256) (off % 65536) p

/-- Wire-validity of a frame sequence relative to a starting checksum
accumulator c: data frames fit in one length byte and carry a nonzero id
byte, and every control frame carries exactly the accumulated checksum
of all frame bytes before it (seeded with c). -/
def goodChunks : Nat → List Chunk → Bool
  | _, [] => true
  | c, Chunk.dataC sid off p :: rest =>
    decide (sid % 256 ≠ 0) && decide (p.length ≤ 255)
      && goodChunks (crc16 (encodeChunk (.dataC sid off p)) c) rest
  | c, Chunk.ctrl off cf :: rest =>
    decide (cf % 65536 = c) && goodChunks (crc16 (encodeChunk (.ctrl off cf)) c) rest

/-- The data frames of a frame sequence, as the parser returns them. -/
def dataPart (chs : List Chunk) : List Chunk :=
  chs.filterMap (fun ch => match ch with
    | .dataC sid off p => some (normalizeChunk (.dataC sid off p))
    | .ctrl _ _ => none)

/-- The payloads carried for one stream id, in order. -/
def payloadsFor (sid : Nat) (chs : List Chunk) : List (List Nat) :=
  chs.filterMap (fun ch => match ch with
    | .dataC s _ p => if s = sid then some p else none
    | .ctrl _ _ => none)

/-- The ids written into the header by multiplexStreams. -/
def muxIds (k : Nat) : List Nat := (List.range k).map (fun i => i + streamIdOffset)

/-- The meta records the demultiplexer decodes from a multiplexed header. -/
def muxMetaRecs (k : Nat) : List MetaRec :=
  (muxIds k).map (fun id => ⟨id, (jsonBytes id).length, jsonBytes id⟩)

/-- The header a demultiplexer decodes from a multiplexed stream. -/
def muxHeadRec (k t0 : Nat) : HeadRec :=
  ⟨muxHeaderLen k t0, k, mkBuf32le t0, muxMetaRecs k, crc16 (muxHeaderBody k t0) 0⟩

/-- Invariant of a running multiplexer session: still writing, k
listener slots, the checksum accumulator equals the checksum of all
chunk bytes written so far, the byte transcript is the encoding of the
frame transcript, the frame transcript is wire-valid from accumulator 0,
and every frame carries a stream id of a declared source. -/
def MuxInv (k : Nat) (s : MuxState) : Prop :=
  s.canWrite = true ∧
  s.listening.length = k ∧
  s.crc = crc16 s.out 0 ∧
  s.out = ((s.chunks.map encodeChunk).flatten) ∧
  goodChunks 0 s.chunks = true ∧
  (∀ ch ∈ s.chunks, ch.streamId ≤ k)

def dataWriteState (i : Nat) (payload : List Nat) (now : Nat) (s : MuxState) : MuxState :=
  { s with
    lastMsgTime := now
    out := s.out ++ mkStreamChunkBuf payload (i + streamIdOffset) (now - s.lastMsgTime)
    chunks := s.chunks ++ chunkFrames payload (i + streamIdOffset) (now - s.lastMsgTime)
    offsets := s.offsets
      ++ (chunkFrames payload (i + streamIdOffset) (now - s.lastMsgTime)).map Chunk.offsetOf
    crc := crc16 (mkStreamChunkBuf payload (i + streamIdOffset) (now - s.lastMsgTime)) s.crc
    crcProcessedBytes := s.crcProcessedBytes
      + (mkStreamChunkBuf payload (i + streamIdOffset) (now - s.lastMsgTime)).length }

/-- Timing invariant of a multiplexer with maxDataGap 60000 and the
one-second tick running: while writing is allowed the next tick is never
more than 61000 ms past the last emission time, the last emission time
never lies in the future of the time floor t, and every offset written
so far fits in 16 bits. -/
def C7Inv (t : Nat) (s : MuxState) : Prop :=
  (s.canWrite = true → s.lastMsgTime ≤ s.nextTick ∧ s.nextTick ≤ s.lastMsgTime + 61000)
  ∧ s.lastMsgTime ≤ t
  ∧ ∀ o ∈ s.offsets, o ≤ 65535

/-! ## Basic lemmas -/

theorem crc16_append (a b : List Nat) (s : Nat) :
    crc16 (a ++ b) s = crc16 b (crc16 a s) := by
  simp [crc16, List.foldl_append]

theorem crc16_cons (x : Nat) (xs : List Nat) (s : Nat) :
    crc16 (x :: xs) s = crc16 xs ((s * 33 + x + 1) % 65536) := rfl

theorem crc16_nil (s : Nat) : crc16 [] s = s := rfl

theorem crc16_lt (bs : List Nat) : ∀ s : Nat, s < 65536 → crc16 bs s < 65536 := by
  induction bs with
  | nil => intro s hs; simpa [crc16] using hs
  | cons x xs ih =>
    intro s hs
    rw [crc16_cons]
    exact ih _ (Nat.mod_lt _ (by omega))

theorem u16_parse (v : Nat) : v % 256 + 256 * (v / 256 % 256) = v % 65536 := by
  omega

theorem u32_parse (v : Nat) :
    v % 256 + 256 * (v / 256 % 256) + 65536 * (v / 65536 % 256)
      + 16777216 * (v / 16777216 % 256) = v % 4294967296 := by
  omega

theorem decDigits_length (n : Nat) : (decDigits n).length ≤ n + 1 := by
  induction n using decDigits.induct with
  | case1 n h => rw [decDigits]; simp [h]
  | case2 n h ih =>
    rw [decDigits]
    simp only [h, dite_false, List.length_append, List.length_cons, List.length_nil]
    omega

theorem jsonBytes_length (id : Nat) : (jsonBytes id).length ≤ id + 8 := by
  have := decDigits_length id
  simp only [jsonBytes, List.length_append, List.length_cons, List.length_nil]
  omega

theorem mkStreamMetaBuf_length (id : Nat) :
    (mkStreamMetaBuf id).length = 5 + (jsonBytes id).length := by
  simp only [mkStreamMetaBuf, mkBuf8, mkBuf32le, List.length_append, List.length_cons,
    List.length_nil]

theorem parseMetas_flatten (ids : List Nat) (tail : List Nat) (h : ∀ id ∈ ids, id < 256) :
    parseMetas ids.length ((ids.map mkStreamMetaBuf).flatten ++ tail)
      = some (ids.map (fun id => ⟨id, (jsonBytes id).length, jsonBytes id⟩), tail) := by
  induction ids with
  | nil => simp [parseMetas]
  | cons id ids ih =>
    have hid : id < 256 := h id (by simp)
    have hL : (jsonBytes id).length < 4294967296 := by
      have := jsonBytes_length id; omega
    have hsum : (jsonBytes id).length % 256 + 256 * ((jsonBytes id).length / 256 % 256)
        + 65536 * ((jsonBytes id).length / 65536 % 256)
        + 16777216 * ((jsonBytes id).length / 16777216 % 256) = (jsonBytes id).length := by
      omega
    simp only [List.map_cons, List.flatten_cons, List.length_cons, mkStreamMetaBuf, mkBuf8,
      mkBuf32le, List.append_assoc, List.cons_append, List.nil_append, parseMetas, hsum,
      List.length_append, Nat.mod_eq_of_lt hid]
    rw [if_pos (by omega)]
    rw [List.take_left' rfl, List.drop_left' rfl]
    rw [ih (fun x hx => h x (by simp [hx]))]

theorem muxIds_lt (k : Nat) (hk : k ≤ 254) : ∀ id ∈ muxIds k, id < 256 := by
  intro id hid
  simp only [muxIds, List.mem_map, List.mem_range, streamIdOffset] at hid
  obtain ⟨i, hi, rfl⟩ := hid
  omega

theorem muxHeaderBody_eq (k t0 : Nat) :
    muxHeaderBody k t0 = mkBuf8 k ++ mkBuf32le t0 ++ ((muxIds k).map mkStreamMetaBuf).flatten := by
  simp [muxHeaderBody, mkBufFloatLe, muxIds, List.map_map]
  rfl

theorem muxHeaderLen_lt (k t0 : Nat) (hk : k ≤ 254) : muxHeaderLen k t0 < 4294967296 := by
  have hlen : ∀ id ∈ muxIds k, id < 256 := muxIds_lt k hk
  have hbound : ∀ x ∈ ((muxIds k).map mkStreamMetaBuf).map List.length, x ≤ 268 := by
    intro x hx
    simp only [List.map_map, List.mem_map, Function.comp] at hx
    obtain ⟨id, hid, rfl⟩ := hx
    have h1 := mkStreamMetaBuf_length id
    have h2 := jsonBytes_length id
    have h3 := hlen id hid
    omega
  have hsum : (((muxIds k).map mkStreamMetaBuf).map List.length).sum
      ≤ (((muxIds k).map mkStreamMetaBuf).map List.length).length * 268 := by
    simpa [smul_eq_mul] using List.sum_le_card_nsmul _ 268 hbound
  have hlen2 : (((muxIds k).map mkStreamMetaBuf).map List.length).length = k := by
    simp [muxIds]
  rw [hlen2] at hsum
  have hflat : (((muxIds k).map mkStreamMetaBuf).flatten).length
      = (((muxIds k).map mkStreamMetaBuf).map List.length).sum := by
    simp [List.length_flatten]
  have hk2 : k * 268 ≤ 254 * 268 := Nat.mul_le_mul_right _ hk
  simp only [muxHeaderLen, muxHeaderBody_eq, List.length_append, mkBuf8, mkBuf32le,
    List.length_cons, List.length_nil]
  omega

theorem muxHeader_length (k t0 : Nat) : (muxHeader k t0).length = muxHeaderLen k t0 := by
  simp only [muxHeader, muxHeaderLen, List.length_append, mkBuf8, mkBuf16le, mkBuf32le,
    List.length_cons, List.length_nil]
  omega

theorem headParser_muxHeader (k t0 : Nat) (rest : List Nat) (hk : k ≤ 254) :
    headParser (muxHeader k t0 ++ rest) = some (muxHeadRec k t0) := by
  have hcrc : crc16 (muxHeaderBody k t0) 0 < 65536 := crc16_lt _ 0 (by omega)
  have hHL : muxHeaderLen k t0 < 4294967296 := muxHeaderLen_lt k t0 hk
  have hmetas := parseMetas_flatten (muxIds k) (mkBuf16le (crc16 (muxHeaderBody k t0) 0) ++ rest)
    (muxIds_lt k hk)
  have hids_len : (muxIds k).length = k := by simp [muxIds]
  rw [hids_len] at hmetas
  rw [muxHeader, muxHeadRec, muxMetaRecs]
  generalize hC : crc16 (muxHeaderBody k t0) 0 = C at hmetas hcrc ⊢
  generalize hH : muxHeaderLen k t0 = H at hHL ⊢
  rw [muxHeaderBody_eq]
  simp only [mkBuf8, mkBuf16le, mkBuf32le, protocolVersion, List.cons_append, List.nil_append,
    List.append_assoc, Nat.mod_eq_of_lt (show k < 256 by omega)] at hmetas ⊢
  rw [headParser]
  simp only [hmetas]
  simp only [Option.some.injEq, HeadRec.mk.injEq]
  refine ⟨by omega, trivial, trivial, trivial, by omega⟩

theorem muxHeader_slice (k t0 : Nat) (rest : List Nat) :
    ((muxHeader k t0 ++ rest).take (muxHeaderLen k t0 - 2)).drop 5 = muxHeaderBody k t0 := by
  have h1 : muxHeader k t0 ++ rest
      = ((mkBuf8 protocolVersion ++ mkBuf32le (muxHeaderLen k t0)) ++ muxHeaderBody k t0)
        ++ (mkBuf16le (crc16 (muxHeaderBody k t0) 0) ++ rest) := by
    simp [muxHeader, List.append_assoc]
  have hlen : ((mkBuf8 protocolVersion ++ mkBuf32le (muxHeaderLen k t0))
      ++ muxHeaderBody k t0).length = muxHeaderLen k t0 - 2 := by
    simp only [List.length_append, mkBuf8, mkBuf32le, List.length_cons, List.length_nil,
      muxHeaderLen]
    omega
  rw [h1, List.take_left' hlen, List.drop_left' (by simp [mkBuf8, mkBuf32le])]

theorem muxHeader_drop (k t0 : Nat) (rest : List Nat) :
    (muxHeader k t0 ++ rest).drop (muxHeaderLen k t0) = rest := by
  rw [← muxHeader_length k t0]
  exact List.drop_left _ _

theorem parseJSONOk_jsonBytes (id : Nat) : parseJSONOk (jsonBytes id) = true := by
  have h2 : (jsonBytes id).getLast? = some 125 := by
    rw [show jsonBytes id = ([123, 34, 105, 100, 34, 58] ++ decDigits id) ++ [125] from by
      simp [jsonBytes]]
    exact List.getLast?_concat _
  rw [show jsonBytes id = 123 :: (34 :: 105 :: 100 :: 34 :: 58 :: (decDigits id ++ [125])) from by
    simp [jsonBytes]] at h2 ⊢
  simp [parseJSONOk, h2]

theorem muxMetaRecs_all_json (k : Nat) :
    (muxMetaRecs k).all (fun m => parseJSONOk m.metaString) = true := by
  simp only [muxMetaRecs, List.all_eq_true, List.mem_map]
  rintro m ⟨id, _, rfl⟩
  exact parseJSONOk_jsonBytes id

theorem demuxSession_muxHeader (k t0 : Nat) (rest : List Nat) (hk : k ≤ 254) :
    demuxSession (muxHeader k t0 ++ rest)
      = chunkStage rest ((muxMetaRecs k).map (fun m => (m.streamId, emptySink))) := by
  have hne : (muxHeader k t0 ++ rest).length ≠ 0 := by
    simp [muxHeader, mkBuf8]
  rw [demuxSession, if_neg hne, headParser_muxHeader k t0 rest hk]
  dsimp only [muxHeadRec]
  rw [muxHeader_slice, muxHeader_drop]
  rw [if_neg (by simp), muxMetaRecs_all_json, if_neg (by simp)]

/-! ## Frame encode/decode lemmas -/

theorem encodeChunk_ctrl (off c : Nat) :
    encodeChunk (.ctrl off c)
      = [0, off % 256, off / 256 % 256, c % 256, c / 256 % 256] := by
  simp [encodeChunk, mkStreamCrcBuf, mkBuf8, mkBuf16le]

theorem encodeChunk_dataC (sid off : Nat) (p : List Nat) :
    encodeChunk (.dataC sid off p)
      = sid % 256 :: off % 256 :: off / 256 % 256 :: p.length % 256 :: p := by
  simp [encodeChunk, mkBuf8, mkBuf16le]

theorem encodeChunk_length_ctrl (off c : Nat) : (encodeChunk (.ctrl off c)).length = 5 := by
  simp [encodeChunk_ctrl]

theorem encodeChunk_length_dataC (sid off : Nat) (p : List Nat) :
    (encodeChunk (.dataC sid off p)).length = 4 + p.length := by
  simp [encodeChunk_dataC]
  omega

theorem streamChunkParser_encode_ctrl (off c : Nat) (r : List Nat) :
    streamChunkParser (encodeChunk (.ctrl off c) ++ r)
      = some (.ctrl (off % 65536) (c % 65536)) := by
  have h1 : off % 256 + 256 * (off / 256 % 256) = off % 65536 := by omega
  have h2 : c % 256 + 256 * (c / 256 % 256) = c % 65536 := by omega
  simp only [encodeChunk_ctrl, List.cons_append, streamChunkParser, if_pos rfl, h1, h2,
    if_true, eq_self_iff_true]

theorem streamChunkParser_encode_dataC (sid off : Nat) (p r : List Nat) (hsid : sid % 256 ≠ 0)
    (hp : p.length ≤ 255) :
    streamChunkParser (encodeChunk (.dataC sid off p) ++ r)
      = some (.dataC (sid % 256) (off % 65536) p) := by
  rw [encodeChunk_dataC, Nat.mod_eq_of_lt (show p.length < 256 by omega)]
  simp only [List.cons_append, streamChunkParser, if_neg hsid]
  rw [if_pos (by simp)]
  simp only [List.take_left, Option.some.injEq, Chunk.dataC.injEq]
  refine ⟨trivial, by omega, trivial⟩

theorem goodChunks_nil (c : Nat) : goodChunks c [] = true := rfl

theorem goodChunks_cons_ctrl (c off cf : Nat) (rest : List Chunk) :
    goodChunks c (Chunk.ctrl off cf :: rest)
      = (decide (cf % 65536 = c) && goodChunks (crc16 (encodeChunk (.ctrl off cf)) c) rest) := by
  rfl

theorem goodChunks_cons_dataC (c sid off : Nat) (p : List Nat) (rest : List Chunk) :
    goodChunks c (Chunk.dataC sid off p :: rest)
      = (decide (sid % 256 ≠ 0) && decide (p.length ≤ 255)
          && goodChunks (crc16 (encodeChunk (.dataC sid off p)) c) rest) := by
  rfl

theorem goodChunks_append (xs : List Chunk) : ∀ (ys : List Chunk) (c : Nat),
    goodChunks c (xs ++ ys)
      = (goodChunks c xs && goodChunks (crc16 ((xs.map encodeChunk).flatten) c) ys) := by
  induction xs with
  | nil => intro ys c; simp [goodChunks_nil, crc16_nil]
  | cons ch xs ih =>
    intro ys c
    cases ch with
    | ctrl off cf =>
      simp only [List.cons_append, goodChunks_cons_ctrl, ih, List.map_cons, List.flatten_cons,
        crc16_append, Bool.and_assoc]
    | dataC sid off p =>
      simp only [List.cons_append, goodChunks_cons_dataC, ih, List.map_cons, List.flatten_cons,
        crc16_append, Bool.and_assoc]

theorem chunkBufSize_ctrl (off c : Nat) : chunkBufSize (.ctrl off c) = 5 := rfl

theorem chunkBufSize_dataC (sid off : Nat) (p : List Nat) (h : sid ≠ 0) :
    chunkBufSize (.dataC sid off p) = 4 + p.length := by
  simp only [chunkBufSize, Chunk.streamId, Chunk.payloadOf, if_neg h]
  omega

theorem parseChunksLoop_eq_none (buffered : List Nat) (c : Nat) (q : List Chunk)
    (h : streamChunkParser buffered = none) :
    parseChunksLoop buffered c q = (q, c, none, buffered) := by
  rw [parseChunksLoop]
  split
  next => rfl
  next ch2 h2 => rw [h] at h2; exact absurd h2 (by simp)

theorem parseChunksLoop_eq_some (buffered : List Nat) (c : Nat) (q : List Chunk) (ch : Chunk)
    (h : streamChunkParser buffered = some ch) :
    parseChunksLoop buffered c q
      = (if ch.streamId = 0 ∧ c ≠ ch.crcOf
         then ((if ch.streamId ≠ 0 then q ++ [ch] else q), c, some .crcValidation, buffered)
         else parseChunksLoop (buffered.drop (chunkBufSize ch))
            (crc16 (buffered.take (chunkBufSize ch)) c)
            (if ch.streamId ≠ 0 then q ++ [ch] else q)) := by
  rw [parseChunksLoop]
  split
  next hnone => rw [h] at hnone; exact absurd hnone (by simp)
  next ch2 h2 =>
    rw [h] at h2
    injection h2 with h3
    subst h3
    rfl

theorem parseChunksLoop_nil (c : Nat) (q : List Chunk) :
    parseChunksLoop [] c q = (q, c, none, []) :=
  parseChunksLoop_eq_none [] c q rfl

theorem dataPart_cons_ctrl (off cf : Nat) (chs : List Chunk) :
    dataPart (Chunk.ctrl off cf :: chs) = dataPart chs := by
  simp [dataPart]

theorem dataPart_cons_dataC (sid off : Nat) (p : List Nat) (chs : List Chunk) :
    dataPart (Chunk.dataC sid off p :: chs)
      = Chunk.dataC (sid % 256) (off % 65536) p :: dataPart chs := by
  simp [dataPart, normalizeChunk]

theorem parseChunksLoop_good (chs : List Chunk) : ∀ (c : Nat) (q : List Chunk) (rest : List Nat),
    goodChunks c chs = true →
    parseChunksLoop ((chs.map encodeChunk).flatten ++ rest) c q
      = parseChunksLoop rest (crc16 ((chs.map encodeChunk).flatten) c) (q ++ dataPart chs) := by
  induction chs with
  | nil =>
    intro c q rest _
    simp [dataPart, crc16_nil]
  | cons ch chs ih =>
    intro c q rest hg
    cases ch with
    | ctrl off cf =>
      rw [goodChunks_cons_ctrl] at hg
      simp only [Bool.and_eq_true, decide_eq_true_eq] at hg
      obtain ⟨h1, h2⟩ := hg
      have henc := streamChunkParser_encode_ctrl off cf ((chs.map encodeChunk).flatten ++ rest)
      have hlen5 : (encodeChunk (.ctrl off cf)).length = 5 := encodeChunk_length_ctrl off cf
      rw [List.map_cons, List.flatten_cons, List.append_assoc,
        parseChunksLoop_eq_some _ _ _ _ henc]
      rw [if_neg (by simp [Chunk.streamId, Chunk.crcOf, h1])]
      simp only [Chunk.streamId, ne_eq, not_true_eq_false, if_false, ite_false,
        chunkBufSize_ctrl]
      rw [show (5 : Nat) = (encodeChunk (.ctrl off cf)).length from hlen5.symm,
        List.drop_left, List.take_left]
      rw [ih _ q rest h2, dataPart_cons_ctrl, crc16_append]
    | dataC sid off p =>
      rw [goodChunks_cons_dataC] at hg
      simp only [Bool.and_eq_true, decide_eq_true_eq] at hg
      obtain ⟨⟨h1, h2⟩, h3⟩ := hg
      have henc := streamChunkParser_encode_dataC sid off p
        ((chs.map encodeChunk).flatten ++ rest) h1 h2
      have hlen4 : (encodeChunk (.dataC sid off p)).length = 4 + p.length :=
        encodeChunk_length_dataC sid off p
      have hsid : sid % 256 ≠ 0 := h1
      rw [List.map_cons, List.flatten_cons, List.append_assoc,
        parseChunksLoop_eq_some _ _ _ _ henc]
      rw [if_neg (by simp [Chunk.streamId, hsid])]
      rw [if_pos (by simp [Chunk.streamId, hsid])]
      rw [show chunkBufSize (Chunk.dataC (sid % 256) (off % 65536) p) = 4 + p.length from
        chunkBufSize_dataC _ _ _ hsid]
      rw [show (4 + p.length : Nat) = (encodeChunk (.dataC sid off p)).length from hlen4.symm,
        List.drop_left, List.take_left]
      rw [ih _ _ rest h3, dataPart_cons_dataC, crc16_append]
      simp

/-! ## Delivery lemmas -/

theorem payloadsFor_cons_ctrl (tid off cf : Nat) (chs : List Chunk) :
    payloadsFor tid (Chunk.ctrl off cf :: chs) = payloadsFor tid chs := by
  simp [payloadsFor]

theorem payloadsFor_cons_dataC (tid s off : Nat) (p : List Nat) (chs : List Chunk) :
    payloadsFor tid (Chunk.dataC s off p :: chs)
      = if s = tid then p :: payloadsFor tid chs else payloadsFor tid chs := by
  by_cases h : s = tid <;> simp [payloadsFor, h]

theorem lookupSink_nil (id : Nat) : lookupSink [] id = none := rfl

theorem lookupSink_cons (a : Nat) (sk : SinkState) (d : List (Nat × SinkState)) (id : Nat) :
    lookupSink ((a, sk) :: d) id = if a = id then some sk else lookupSink d id := by
  by_cases h : a = id <;> simp [lookupSink, List.find?_cons, h]

theorem lookupSink_updateSink (d : List (Nat × SinkState)) (sid id : Nat) (p : List Nat) :
    lookupSink (updateSink d sid p) id
      = if id = sid
        then (lookupSink d id).map (fun sk => { sk with written := sk.written ++ p })
        else lookupSink d id := by
  induction d with
  | nil => simp only [updateSink, List.map_nil, lookupSink_nil]; split <;> rfl
  | cons kv d ih =>
    obtain ⟨a, sk⟩ := kv
    have hup : updateSink ((a, sk) :: d) sid p
        = (if a = sid then (a, { sk with written := sk.written ++ p }) else (a, sk))
          :: updateSink d sid p := rfl
    by_cases ha : a = sid
    · subst ha
      by_cases hai : a = id
      · subst hai
        simp [hup, lookupSink_cons]
      · have hia : ¬id = a := fun h => hai h.symm
        simp [hup, lookupSink_cons, hai, hia, ih]
    · by_cases hai : a = id
      · subst hai
        have hia : ¬a = sid := ha
        simp [hup, lookupSink_cons, ha, hia]
      · have hia : ¬id = a := fun h => hai h.symm
        simp [hup, lookupSink_cons, ha, hai, hia, ih]

theorem lookupSink_updateSink_isSome (d : List (Nat × SinkState)) (sid id : Nat) (p : List Nat) :
    (lookupSink (updateSink d sid p) id).isSome = (lookupSink d id).isSome := by
  rw [lookupSink_updateSink]
  split
  · cases lookupSink d id <;> simp
  · rfl

theorem deliverQueue_ok (q : List Chunk) : ∀ d : List (Nat × SinkState),
    (∀ ch ∈ q, ch.streamId ≠ 0 → (lookupSink d ch.streamId).isSome = true) →
    (deliverQueue q d).2 = none ∧
    ∀ id, id ≠ 0 → lookupSink (deliverQueue q d).1 id
      = (lookupSink d id).map
          (fun sk => { sk with written := sk.written ++ (payloadsFor id q).flatten }) := by
  induction q with
  | nil =>
    intro d _
    refine ⟨rfl, fun id _ => ?_⟩
    simp [deliverQueue, payloadsFor]
  | cons ch q ih =>
    intro d hd
    cases ch with
    | ctrl off cf =>
      have hskip : deliverQueue (Chunk.ctrl off cf :: q) d = deliverQueue q d := by
        simp [deliverQueue, Chunk.streamId]
      obtain ⟨h1, h2⟩ := ih d (fun ch hch hs => hd ch (by simp [hch]) hs)
      refine ⟨hskip ▸ h1, fun id hid => ?_⟩
      rw [hskip, payloadsFor_cons_ctrl]
      exact h2 id hid
    | dataC sid off p =>
      by_cases hsid : sid = 0
      · subst hsid
        have hskip : deliverQueue (Chunk.dataC 0 off p :: q) d = deliverQueue q d := by
          simp [deliverQueue, Chunk.streamId]
        obtain ⟨h1, h2⟩ := ih d (fun ch hch hs => hd ch (by simp [hch]) hs)
        refine ⟨hskip ▸ h1, fun id hid => ?_⟩
        rw [hskip, payloadsFor_cons_dataC, if_neg (fun h => hid h.symm)]
        exact h2 id hid
      · have hsome : (lookupSink d sid).isSome = true :=
          hd (Chunk.dataC sid off p) (by simp) (by simp [Chunk.streamId, hsid])
        obtain ⟨sk, hsk⟩ := Option.isSome_iff_exists.mp hsome
        have hstep : deliverQueue (Chunk.dataC sid off p :: q) d
            = deliverQueue q (updateSink d sid p) := by
          rw [deliverQueue]
          rw [if_neg (by simp [Chunk.streamId, hsid])]
          rw [show Chunk.streamId (Chunk.dataC sid off p) = sid from rfl, hsk]
          rfl
        have hdom : ∀ ch ∈ q, ch.streamId ≠ 0
            → (lookupSink (updateSink d sid p) ch.streamId).isSome = true := by
          intro ch hch hs
          rw [lookupSink_updateSink_isSome]
          exact hd ch (by simp [hch]) hs
        obtain ⟨h1, h2⟩ := ih (updateSink d sid p) hdom
        refine ⟨hstep ▸ h1, fun id hid => ?_⟩
        rw [hstep, h2 id hid, lookupSink_updateSink, payloadsFor_cons_dataC]
        by_cases hids : id = sid
        · subst hids
          rw [if_pos rfl, if_pos rfl]
          cases lookupSink d id <;> simp
        · rw [if_neg hids, if_neg (fun h => hids h.symm)]

theorem deliverQueue_typeError (q : List Chunk) : ∀ d : List (Nat × SinkState),
    (∃ ch ∈ q, ch.streamId ≠ 0 ∧ lookupSink d ch.streamId = none) →
    (deliverQueue q d).2 = some .typeError := by
  induction q with
  | nil => intro d h; simp at h
  | cons ch q ih =>
    intro d h
    obtain ⟨ch2, hmem, hs2, hn2⟩ := h
    by_cases hz : ch.streamId = 0
    · have hstep : deliverQueue (ch :: q) d = deliverQueue q d := by
        rw [deliverQueue, if_pos hz]
      rw [hstep]
      apply ih
      rcases List.mem_cons.mp hmem with h | h
      · exact absurd (h ▸ hz) hs2
      · exact ⟨ch2, h, hs2, hn2⟩
    · cases hl : lookupSink d ch.streamId with
      | none =>
        rw [deliverQueue, if_neg hz, hl]
      | some sk =>
        have hstep : deliverQueue (ch :: q) d
            = deliverQueue q (updateSink d ch.streamId ch.payloadOf) := by
          rw [deliverQueue, if_neg hz, hl]
        rw [hstep]
        apply ih
        rcases List.mem_cons.mp hmem with h | h
        · subst h; rw [hl] at hn2; exact absurd hn2 (by simp)
        · refine ⟨ch2, h, hs2, ?_⟩
          have := lookupSink_updateSink_isSome d ch.streamId ch2.streamId ch.payloadOf
          rw [hn2] at this
          simp only [Option.isSome_none] at this
          cases hx : lookupSink (updateSink d ch.streamId ch.payloadOf) ch2.streamId with
          | none => rfl
          | some y => rw [hx] at this; simp at this

/-! ## mkStreamChunkBuf structure lemmas -/

theorem chunkFrames_encode (c : List Nat) (sid off : Nat) :
    mkStreamChunkBuf c sid off = ((chunkFrames c sid off).map encodeChunk).flatten := by
  induction c, sid, off using chunkFrames.induct with
  | case1 c sid off h ih =>
    rw [chunkFrames, dif_pos h, mkStreamChunkBuf, dif_pos h]
    have hdrop : (c.drop (c.length - 255)).length = 255 := by
      simp only [List.length_drop]; omega
    rw [show mkStreamChunkBuf (c.drop (c.length - 255)) sid 0
        = encodeChunk (.dataC sid 0 (c.drop (c.length - 255))) from by
      rw [mkStreamChunkBuf, dif_neg (by omega), encodeChunk]]
    simp only [List.map_append, List.flatten_append, List.map_cons, List.map_nil,
      List.flatten_cons, List.flatten_nil, List.append_nil, ih]
  | case2 c sid off h =>
    rw [chunkFrames, dif_neg h, mkStreamChunkBuf, dif_neg h]
    simp [encodeChunk]

theorem chunkFrames_all (c : List Nat) (sid off : Nat) :
    ∀ ch ∈ chunkFrames c sid off,
      ∃ o2 p, ch = Chunk.dataC sid o2 p ∧ p.length ≤ 255 := by
  induction c, sid, off using chunkFrames.induct with
  | case1 c sid off h ih =>
    rw [chunkFrames, dif_pos h]
    intro ch hch
    rcases List.mem_append.mp hch with hm | hm
    · exact ih ch hm
    · simp only [List.mem_singleton] at hm
      exact ⟨0, c.drop (c.length - 255), hm, by simp only [List.length_drop]; omega⟩
  | case2 c sid off h =>
    rw [chunkFrames, dif_neg h]
    intro ch hch
    simp only [List.mem_singleton] at hch
    exact ⟨off, c, hch, by omega⟩

theorem payloadsFor_append (tid : Nat) (xs ys : List Chunk) :
    payloadsFor tid (xs ++ ys) = payloadsFor tid xs ++ payloadsFor tid ys := by
  simp [payloadsFor, List.filterMap_append]

theorem payloadsFor_chunkFrames_flatten (tid sid off : Nat) (c : List Nat) :
    (payloadsFor tid (chunkFrames c sid off)).flatten = if sid = tid then c else [] := by
  induction c, sid, off using chunkFrames.induct with
  | case1 c sid off h ih =>
    rw [chunkFrames, dif_pos h, payloadsFor_append, List.flatten_append, ih,
      payloadsFor_cons_dataC]
    by_cases hst : sid = tid
    · simp [hst, payloadsFor]
    · simp [hst, payloadsFor]
  | case2 c sid off h =>
    rw [chunkFrames, dif_neg h, payloadsFor_cons_dataC]
    by_cases hst : sid = tid
    · simp [hst, payloadsFor]
    · simp [hst, payloadsFor]

theorem goodChunks_of_data (chs : List Chunk)
    (h : ∀ ch ∈ chs, ∃ sid off p, ch = Chunk.dataC sid off p ∧ sid % 256 ≠ 0 ∧ p.length ≤ 255) :
    ∀ cc, goodChunks cc chs = true := by
  induction chs with
  | nil => intro cc; rfl
  | cons ch chs ih =>
    intro cc
    obtain ⟨sid, off, p, rfl, h1, h2⟩ := h ch (by simp)
    rw [goodChunks_cons_dataC]
    simp only [Bool.and_eq_true, decide_eq_true_eq]
    exact ⟨⟨h1, h2⟩, ih (fun x hx => h x (by simp [hx])) _⟩

theorem payloadsFor_dataPart (tid : Nat) (chs : List Chunk)
    (h : ∀ ch ∈ chs, ch.streamId < 256) :
    payloadsFor tid (dataPart chs) = payloadsFor tid chs := by
  induction chs with
  | nil => rfl
  | cons ch chs ih =>
    have hrest := ih (fun x hx => h x (by simp [hx]))
    cases ch with
    | ctrl off cf => rw [dataPart_cons_ctrl, payloadsFor_cons_ctrl, hrest]
    | dataC sid off p =>
      have hsid : sid < 256 := by
        have := h (Chunk.dataC sid off p) (by simp)
        simpa [Chunk.streamId] using this
      rw [dataPart_cons_dataC, payloadsFor_cons_dataC, payloadsFor_cons_dataC,
        Nat.mod_eq_of_lt hsid, hrest]

theorem lookupSink_const (ids : List Nat) (id : Nat) :
    lookupSink (ids.map (fun i => (i, emptySink))) id
      = if id ∈ ids then some emptySink else none := by
  induction ids with
  | nil => simp [lookupSink_nil]
  | cons a ids ih =>
    simp only [List.map_cons, lookupSink_cons, ih, List.mem_cons]
    by_cases ha : a = id
    · simp [ha]
    · have : ¬id = a := fun h => ha h.symm
      simp [ha, this]

/-! ## Multiplexer run invariant -/

theorem mkStreamCrcBuf_encode (off c : Nat) :
    mkStreamCrcBuf off c = encodeChunk (.ctrl off c) := rfl

theorem maybeSendCrc_effects (g w now : Nat) (s : MuxState) :
    (maybeSendCrc g w now s).listening = s.listening ∧
    (maybeSendCrc g w now s).canWrite = s.canWrite ∧
    (maybeSendCrc g w now s).nextTick = s.nextTick ∧
    (maybeSendCrc g w now s).outEnded = s.outEnded ∧
    ∀ tid, payloadsFor tid (maybeSendCrc g w now s).chunks = payloadsFor tid s.chunks := by
  rw [maybeSendCrc]
  by_cases hcw : s.canWrite = false
  · rw [if_pos hcw]
    exact ⟨rfl, rfl, rfl, rfl, fun _ => rfl⟩
  · rw [if_neg hcw]
    dsimp only
    by_cases htrig : now - s.lastMsgTime > g ∨ s.crcProcessedBytes > w ∨ s.streamsAlive = 0
    · rw [if_pos htrig]
      refine ⟨rfl, rfl, rfl, rfl, fun tid => ?_⟩
      simp [payloadsFor_append, payloadsFor]
    · rw [if_neg htrig]
      exact ⟨rfl, rfl, rfl, rfl, fun _ => rfl⟩

theorem maybeSendCrc_inv (k g w now : Nat) (s : MuxState) (h : MuxInv k s) :
    MuxInv k (maybeSendCrc g w now s) := by
  obtain ⟨h1, h2, h3, h4, h5, h6⟩ := h
  rw [maybeSendCrc]
  by_cases hcw : s.canWrite = false
  · rw [if_pos hcw]
    exact ⟨h1, h2, h3, h4, h5, h6⟩
  · rw [if_neg hcw]
    dsimp only
    by_cases htrig : now - s.lastMsgTime > g ∨ s.crcProcessedBytes > w ∨ s.streamsAlive = 0
    · rw [if_pos htrig]
      have hlt : s.crc < 65536 := by
        rw [h3]; exact crc16_lt _ 0 (by omega)
      refine ⟨h1, h2, ?_, ?_, ?_, ?_⟩
      · simp only [crc16_append, h3]
      · simp only [h4, List.map_append, List.flatten_append, List.map_cons, List.map_nil,
          List.flatten_cons, List.flatten_nil, List.append_nil, mkStreamCrcBuf_encode]
      · rw [goodChunks_append]
        simp only [Bool.and_eq_true, h5, true_and, goodChunks_cons_ctrl, goodChunks_nil,
          Bool.and_true, decide_eq_true_eq]
        rw [← h4, ← h3]
        exact Nat.mod_eq_of_lt hlt
      · intro ch hch
        rcases List.mem_append.mp hch with hm | hm
        · exact h6 ch hm
        · simp only [List.mem_singleton] at hm
          subst hm
          simp [Chunk.streamId]
    · rw [if_neg htrig]
      exact ⟨h1, h2, h3, h4, h5, h6⟩

theorem applyTicks_effects (g w : Nat) : ∀ (n : Nat) (s : MuxState),
    (applyTicks g w n s).listening = s.listening ∧
    (applyTicks g w n s).canWrite = s.canWrite ∧
    (applyTicks g w n s).outEnded = s.outEnded ∧
    ∀ tid, payloadsFor tid (applyTicks g w n s).chunks = payloadsFor tid s.chunks := by
  intro n
  induction n with
  | zero => intro s; exact ⟨rfl, rfl, rfl, fun _ => rfl⟩
  | succ n ih =>
    intro s
    obtain ⟨e1, e2, e3, e4, e5⟩ := maybeSendCrc_effects g w s.nextTick s
    obtain ⟨i1, i2, i3, i4⟩ := ih { maybeSendCrc g w s.nextTick s with
      nextTick := (maybeSendCrc g w s.nextTick s).nextTick + 1000 }
    rw [applyTicks]
    exact ⟨i1.trans e1, i2.trans e2, i3.trans e4, fun tid => (i4 tid).trans (e5 tid)⟩

theorem applyTicks_inv (k g w : Nat) : ∀ (n : Nat) (s : MuxState),
    MuxInv k s → MuxInv k (applyTicks g w n s) := by
  intro n
  induction n with
  | zero => intro s h; exact h
  | succ n ih =>
    intro s h
    rw [applyTicks]
    apply ih
    have h2 := maybeSendCrc_inv k g w s.nextTick s h
    exact ⟨h2.1, h2.2.1, h2.2.2.1, h2.2.2.2.1, h2.2.2.2.2.1, h2.2.2.2.2.2⟩

theorem runTicks_inv (k g w t : Nat) (s : MuxState) (h : MuxInv k s) :
    MuxInv k (runTicks g w t s) := applyTicks_inv k g w _ s h

theorem runTicks_effects (g w t : Nat) (s : MuxState) :
    (runTicks g w t s).listening = s.listening ∧
    (runTicks g w t s).canWrite = s.canWrite ∧
    (runTicks g w t s).outEnded = s.outEnded ∧
    ∀ tid, payloadsFor tid (runTicks g w t s).chunks = payloadsFor tid s.chunks := by
  obtain ⟨a, b, c, d⟩ := applyTicks_effects g w (tickCount s t) s
  exact ⟨a, b, c, d⟩

theorem dataStep_eq (g w i : Nat) (payload : List Nat) (now : Nat) (s : MuxState)
    (hl : s.listening.getD i false = true) (hcw : s.canWrite = true) :
    dataStep g w i payload now s = maybeSendCrc g w now (dataWriteState i payload now s) := by
  rw [dataStep, if_neg (by rw [hl]; simp), if_neg (by rw [hcw]; simp)]
  rfl

theorem dataWriteState_inv (k i : Nat) (payload : List Nat) (now : Nat) (s : MuxState)
    (hk : k ≤ 254) (h : MuxInv k s) (hi : i < k) :
    MuxInv k (dataWriteState i payload now s) := by
  obtain ⟨h1, h2, h3, h4, h5, h6⟩ := h
  refine ⟨h1, h2, ?_, ?_, ?_, ?_⟩
  · simp only [dataWriteState, crc16_append, h3]
  · simp only [dataWriteState, h4, chunkFrames_encode, List.map_append, List.flatten_append]
  · simp only [dataWriteState]
    rw [goodChunks_append]
    simp only [Bool.and_eq_true, h5, true_and]
    apply goodChunks_of_data
    intro ch hch
    obtain ⟨o2, p, rfl, hp⟩ := chunkFrames_all _ _ _ ch hch
    refine ⟨i + streamIdOffset, o2, p, rfl, ?_, hp⟩
    rw [Nat.mod_eq_of_lt (by simp only [streamIdOffset]; omega)]
    simp [streamIdOffset]
  · simp only [dataWriteState]
    intro ch hch
    rcases List.mem_append.mp hch with hm | hm
    · exact h6 ch hm
    · obtain ⟨o2, p, rfl, _⟩ := chunkFrames_all _ _ _ ch hm
      simp only [Chunk.streamId, streamIdOffset]
      omega

theorem dataStep_spec (g w k i : Nat) (payload : List Nat) (now : Nat) (s : MuxState)
    (hk : k ≤ 254) (h : MuxInv k s) (hi : i < k) (hl : s.listening.getD i false = true) :
    MuxInv k (dataStep g w i payload now s) ∧
    (dataStep g w i payload now s).listening = s.listening ∧
    ∀ tid, (payloadsFor tid (dataStep g w i payload now s).chunks).flatten
      = (payloadsFor tid s.chunks).flatten
        ++ (if i + streamIdOffset = tid then payload else []) := by
  rw [dataStep_eq g w i payload now s hl h.1]
  obtain ⟨e1, _, _, _, e5⟩ := maybeSendCrc_effects g w now (dataWriteState i payload now s)
  refine ⟨maybeSendCrc_inv k g w now _ (dataWriteState_inv k i payload now s hk h hi),
    ?_, fun tid => ?_⟩
  · rw [e1]; rfl
  · rw [e5 tid]
    simp only [dataWriteState]
    rw [payloadsFor_append, List.flatten_append, payloadsFor_chunkFrames_flatten]

theorem finishStep_spec (g w k i now : Nat) (s : MuxState)
    (h : MuxInv k s) (hl : s.listening.getD i false = true) :
    MuxInv k (finishStep g w i now s) ∧
    (finishStep g w i now s).listening = s.listening.set i false ∧
    ∀ tid, payloadsFor tid (finishStep g w i now s).chunks = payloadsFor tid s.chunks := by
  obtain ⟨h1, h2, h3, h4, h5, h6⟩ := h
  rw [finishStep, if_neg (by rw [hl]; simp)]
  dsimp only [rawFinishStep]
  have hS : MuxInv k { s with streamsAlive := s.streamsAlive - 1 } :=
    ⟨h1, h2, h3, h4, h5, h6⟩
  have hM := maybeSendCrc_inv k g w now _ hS
  obtain ⟨e1, e2, _, _, e5⟩ := maybeSendCrc_effects g w now
    { s with streamsAlive := s.streamsAlive - 1 }
  obtain ⟨m1, m2, m3, m4, m5, m6⟩ := hM
  refine ⟨⟨m1, ?_, m3, m4, m5, m6⟩, ?_, fun tid => e5 tid⟩
  · simp only [List.length_set]
    rw [e1]
    exact h2
  · rw [e1]

theorem getD_true_lt (l : List Bool) (i : Nat) (h : l.getD i false = true) : i < l.length := by
  by_contra hc
  push_neg at hc
  rw [List.getD_eq_default _ _ hc] at h
  simp at h

theorem muxRun_cons (g w : Nat) (s : MuxState) (e : MEvent) (es : List MEvent) :
    muxRun g w s (e :: es) = muxRun g w (muxStep g w s e) es := rfl

theorem muxRun_spec (g w k : Nat) (hk : k ≤ 254) : ∀ (es : List MEvent) (s : MuxState),
    okTrace s.listening es = true → MuxInv k s →
    MuxInv k (muxRun g w s es) ∧
    ∀ i, i < k → (payloadsFor (i + streamIdOffset) (muxRun g w s es).chunks).flatten
      = (payloadsFor (i + streamIdOffset) s.chunks).flatten ++ (writesOf i es).flatten := by
  intro es
  induction es with
  | nil =>
    intro s _ h
    exact ⟨h, fun i _ => by simp [muxRun, writesOf]⟩
  | cons e es ih =>
    intro s hok hinv
    rw [muxRun_cons]
    cases e with
    | dataEv j p t =>
      simp only [okTrace, Bool.and_eq_true] at hok
      obtain ⟨hj, hok2⟩ := hok
      obtain ⟨r1, _, _, r4⟩ := runTicks_effects g w t s
      have hrinv := runTicks_inv k g w t s hinv
      have hjk : j < k := by
        have := getD_true_lt _ _ hj
        rw [hinv.2.1] at this
        exact this
      have hl2 : (runTicks g w t s).listening.getD j false = true := by rw [r1]; exact hj
      obtain ⟨d1, d2, d3⟩ := dataStep_spec g w k j p t (runTicks g w t s) hk hrinv hjk hl2
      have hstep : muxStep g w s (MEvent.dataEv j p t)
          = dataStep g w j p t (runTicks g w t s) := rfl
      rw [hstep]
      have hlis : (dataStep g w j p t (runTicks g w t s)).listening = s.listening :=
        d2.trans r1
      obtain ⟨f1, f2⟩ := ih (dataStep g w j p t (runTicks g w t s)) (by rw [hlis]; exact hok2) d1
      refine ⟨f1, fun i hi => ?_⟩
      rw [f2 i hi, d3 (i + streamIdOffset), r4 (i + streamIdOffset)]
      rw [List.append_assoc]
      congr 1
      simp only [writesOf]
      by_cases hji : j = i
      · subst hji
        rw [if_pos rfl, if_pos rfl, List.flatten_cons]
      · rw [if_neg hji, if_neg (by omega)]
        simp
    | finishEv j t =>
      simp only [okTrace, Bool.and_eq_true] at hok
      obtain ⟨hj, hok2⟩ := hok
      obtain ⟨r1, _, _, r4⟩ := runTicks_effects g w t s
      have hrinv := runTicks_inv k g w t s hinv
      have hl2 : (runTicks g w t s).listening.getD j false = true := by rw [r1]; exact hj
      obtain ⟨d1, d2, d3⟩ := finishStep_spec g w k j t (runTicks g w t s) hrinv hl2
      have hstep : muxStep g w s (MEvent.finishEv j t)
          = finishStep g w j t (runTicks g w t s) := rfl
      rw [hstep]
      have hlis : (finishStep g w j t (runTicks g w t s)).listening = s.listening.set j false := by
        rw [d2, r1]
      obtain ⟨f1, f2⟩ := ih (finishStep g w j t (runTicks g w t s)) (by rw [hlis]; exact hok2) d1
      refine ⟨f1, fun i hi => ?_⟩
      rw [f2 i hi, d3 (i + streamIdOffset), r4 (i + streamIdOffset)]
      simp [writesOf]
    | stopEv t =>
      simp [okTrace] at hok

theorem goodChunks_mem_dataC (chs : List Chunk) : ∀ c, goodChunks c chs = true →
    ∀ sid off p, Chunk.dataC sid off p ∈ chs → sid % 256 ≠ 0 ∧ p.length ≤ 255 := by
  induction chs with
  | nil => intro c _ sid off p hm; simp at hm
  | cons ch chs ih =>
    intro c hg sid off p hm
    rcases List.mem_cons.mp hm with hm2 | hm2
    · subst hm2
      rw [goodChunks_cons_dataC] at hg
      simp only [Bool.and_eq_true, decide_eq_true_eq] at hg
      exact hg.1
    · cases ch with
      | ctrl o cf =>
        rw [goodChunks_cons_ctrl] at hg
        simp only [Bool.and_eq_true, decide_eq_true_eq] at hg
        exact ih _ hg.2 sid off p hm2
      | dataC s2 o2 p2 =>
        rw [goodChunks_cons_dataC] at hg
        simp only [Bool.and_eq_true, decide_eq_true_eq] at hg
        exact ih _ hg.2 sid off p hm2

theorem mem_dataPart (ch : Chunk) (chs : List Chunk) (h : ch ∈ dataPart chs) :
    ∃ sid off p, Chunk.dataC sid off p ∈ chs
      ∧ ch = Chunk.dataC (sid % 256) (off % 65536) p := by
  induction chs with
  | nil => simp [dataPart] at h
  | cons c2 chs ih =>
    cases c2 with
    | ctrl o cf =>
      rw [dataPart_cons_ctrl] at h
      obtain ⟨sid, off, p, hm, he⟩ := ih h
      exact ⟨sid, off, p, by simp [hm], he⟩
    | dataC s2 o2 p2 =>
      rw [dataPart_cons_dataC] at h
      rcases List.mem_cons.mp h with hm | hm
      · exact ⟨s2, o2, p2, by simp, hm⟩
      · obtain ⟨sid, off, p, hmm, he⟩ := ih hm
        exact ⟨sid, off, p, by simp [hmm], he⟩

theorem muxInit_inv (k t0 : Nat) : MuxInv k (muxInit k t0) := by
  refine ⟨rfl, by simp [muxInit], rfl, rfl, rfl, ?_⟩
  intro ch hch
  simp [muxInit] at hch

theorem dict0_eq (k : Nat) :
    (muxMetaRecs k).map (fun m => (m.streamId, emptySink))
      = (muxIds k).map (fun i => (i, emptySink)) := by
  simp [muxMetaRecs, List.map_map]

theorem mem_muxIds (k id : Nat) : id ∈ muxIds k ↔ 1 ≤ id ∧ id ≤ k := by
  simp only [muxIds, List.mem_map, List.mem_range, streamIdOffset]
  constructor
  · rintro ⟨i, hi, rfl⟩; omega
  · rintro ⟨h1, h2⟩; exact ⟨id - 1, by omega, by omega⟩

/-- C1: for any set of at most 254 sources, each emitting an arbitrary
sequence of byte buffers over any well-formed event trace (arbitrary
interleavings, empty buffers and buffers longer than 255 bytes
included), feeding the whole output of multiplexStreams into
demultiplexStream with realtime playback disabled reproduces, on the
sink with id i+1, exactly the concatenation of the bytes source i
emitted, in original order; the session raises no error. -/
theorem c1_roundtrip (g w k t0 : Nat) (es : List MEvent)
    (hk : k ≤ 254)
    (hok : okTrace (List.replicate k true) es = true)
    (hv : validFrom t0 es = true) :
    (demuxSession (muxOutput g w k t0 es)).ready = true ∧
    (demuxSession (muxOutput g w k t0 es)).cbErr = none ∧
    (demuxSession (muxOutput g w k t0 es)).rethrown = none ∧
    (demuxSession (muxOutput g w k t0 es)).inputEnded = false ∧
    ∀ i, i < k →
      lookupSink (demuxSession (muxOutput g w k t0 es)).sinks (i + streamIdOffset)
        = some { written := (writesOf i es).flatten, errs := [], ended := false } := by
  have hok0 : okTrace (muxInit k t0).listening es = true := hok
  obtain ⟨hfinv, hpay⟩ := muxRun_spec g w k hk es (muxInit k t0) hok0 (muxInit_inv k t0)
  obtain ⟨i1, i2, i3, i4, i5, i6⟩ := hfinv
  rw [muxOutput, demuxSession_muxHeader k t0 _ hk]
  have hgood := i5
  have hloop := parseChunksLoop_good (muxRun g w (muxInit k t0) es).chunks 0 [] [] hgood
  rw [List.append_nil, parseChunksLoop_nil] at hloop
  rw [chunkStage, i4, hloop]
  dsimp only
  have hdom : ∀ ch ∈ dataPart (muxRun g w (muxInit k t0) es).chunks, ch.streamId ≠ 0 →
      (lookupSink ((muxMetaRecs k).map (fun m => (m.streamId, emptySink))) ch.streamId).isSome
        = true := by
    intro ch hch _
    obtain ⟨sid, off, p, hm, rfl⟩ := mem_dataPart ch _ hch
    obtain ⟨hs1, _⟩ := goodChunks_mem_dataC _ 0 hgood sid off p hm
    have hle : sid ≤ k := by
      have := i6 _ hm
      simpa [Chunk.streamId] using this
    have hmod : sid % 256 = sid := Nat.mod_eq_of_lt (by omega)
    rw [dict0_eq, Chunk.streamId, hmod, lookupSink_const,
      if_pos ((mem_muxIds k sid).mpr ⟨by omega, hle⟩)]
    rfl
  obtain ⟨hdel2, hdel1⟩ := deliverQueue_ok (dataPart (muxRun g w (muxInit k t0) es).chunks)
    ((muxMetaRecs k).map (fun m => (m.streamId, emptySink))) hdom
  simp only [List.nil_append]
  refine ⟨trivial, trivial, hdel2, trivial, fun i hi => ?_⟩
  have hlook := hdel1 (i + streamIdOffset) (by simp [streamIdOffset])
  rw [hlook]
  have hfor : payloadsFor (i + streamIdOffset)
        (dataPart (muxRun g w (muxInit k t0) es).chunks)
      = payloadsFor (i + streamIdOffset) (muxRun g w (muxInit k t0) es).chunks := by
    apply payloadsFor_dataPart
    intro ch hch
    have := i6 ch hch
    omega
  rw [dict0_eq, lookupSink_const,
    if_pos ((mem_muxIds k (i + streamIdOffset)).mpr ⟨by simp [streamIdOffset],
      by simp only [streamIdOffset]; omega⟩)]
  have hw := hpay i hi
  have hze : (payloadsFor (i + streamIdOffset) (muxInit k t0).chunks).flatten
      = ([] : List Nat) := rfl
  rw [hze, List.nil_append] at hw
  simp [emptySink, hfor, hw]

/-- C1 witness: a concrete one-source session with a single two-byte
write round-trips to the sink with id 1. -/
theorem c1_roundtrip_witness :
    lookupSink (demuxSession (muxOutput 60000 1500 1 0 [MEvent.dataEv 0 [7, 8] 0])).sinks 1
      = some { written := [7, 8], errs := [], ended := false } := by
  have h := c1_roundtrip 60000 1500 1 0 [MEvent.dataEv 0 [7, 8] 0]
    (by decide) (by decide) (by decide)
  exact h.2.2.2.2 0 (by decide)

/-- C3: the data-frame encoder splits oversized payloads from the tail
in 255-byte slices until the remainder is at most 255 bytes, emitting
the head frame (true offset, remainder bytes) first and then the
continuation frames with offset 0; a 600-byte write encodes as exactly
three frames of 90, 255 and 255 payload bytes whose payloads
concatenate back to the original bytes in order. -/
theorem c3_tail_split (chunk : List Nat) (sid off : Nat) (h : chunk.length = 600) :
    (mkStreamChunkBuf chunk sid off
      = encodeChunk (.dataC sid off (chunk.take 90))
        ++ encodeChunk (.dataC sid 0 ((chunk.drop 90).take 255))
        ++ encodeChunk (.dataC sid 0 (chunk.drop 345)))
    ∧ chunk.take 90 ++ ((chunk.drop 90).take 255 ++ chunk.drop 345) = chunk
    ∧ (chunk.take 90).length = 90
    ∧ ((chunk.drop 90).take 255).length = 255
    ∧ (chunk.drop 345).length = 255
    ∧ (∀ c2 : List Nat, 255 < c2.length →
        mkStreamChunkBuf c2 sid off
          = mkStreamChunkBuf (c2.take (c2.length - 255)) sid off
            ++ encodeChunk (.dataC sid 0 (c2.drop (c2.length - 255)))) := by
  have hsplit : ∀ c2 : List Nat, 255 < c2.length →
      mkStreamChunkBuf c2 sid off
        = mkStreamChunkBuf (c2.take (c2.length - 255)) sid off
          ++ encodeChunk (.dataC sid 0 (c2.drop (c2.length - 255))) := by
    intro c2 hc2
    rw [mkStreamChunkBuf, dif_pos (by omega)]
    congr 1
    rw [mkStreamChunkBuf, dif_neg (by simp only [List.length_drop]; omega), encodeChunk]
  have e1 : chunk.length - 255 = 345 := by omega
  have l2 : (chunk.take 345).length = 345 := by
    simp only [List.length_take]; omega
  have hstep1 : mkStreamChunkBuf chunk sid off
      = mkStreamChunkBuf (chunk.take 345) sid off
        ++ encodeChunk (.dataC sid 0 (chunk.drop 345)) := by
    rw [hsplit chunk (by omega), e1]
  have hstep2 : mkStreamChunkBuf (chunk.take 345) sid off
      = mkStreamChunkBuf ((chunk.take 345).take 90) sid off
        ++ encodeChunk (.dataC sid 0 ((chunk.take 345).drop 90)) := by
    rw [hsplit (chunk.take 345) (by omega), l2]
  have htt : (chunk.take 345).take 90 = chunk.take 90 := by
    rw [List.take_take, show (90 ⊓ 345 : Nat) = 90 by omega]
  have htd : (chunk.take 345).drop 90 = (chunk.drop 90).take 255 := by
    rw [List.drop_take]
  have hbase : mkStreamChunkBuf (chunk.take 90) sid off
      = encodeChunk (.dataC sid off (chunk.take 90)) := by
    rw [mkStreamChunkBuf, dif_neg (by simp only [List.length_take]; omega), encodeChunk]
  refine ⟨?_, ?_, ?_, ?_, ?_, hsplit⟩
  · rw [hstep1, hstep2, htt, htd, hbase, List.append_assoc]
  · rw [show (345 : Nat) = 90 + 255 from rfl, ← List.drop_drop, List.take_append_drop,
      List.take_append_drop]
  · simp only [List.length_take]; omega
  · simp only [List.length_take, List.length_drop]; omega
  · simp only [List.length_drop]; omega

/-- C3 witness: the split at a concrete 600-byte payload. -/
theorem c3_tail_split_witness :
    ((List.range 600).length = 600)
    ∧ mkStreamChunkBuf (List.range 600) 3 17
      = encodeChunk (.dataC 3 17 ((List.range 600).take 90))
        ++ encodeChunk (.dataC 3 0 (((List.range 600).drop 90).take 255))
        ++ encodeChunk (.dataC 3 0 ((List.range 600).drop 345)) := by
  refine ⟨by simp, ?_⟩
  exact (c3_tail_split (List.range 600) 3 17 (by simp)).1

/-- C6: with the multiplexer still writing, maybeSendCrc emits a control
frame exactly when elapsed time since the last frame exceeds
maxDataGapMillis, or the un-checksummed byte count exceeds
checksumWindowBytes, or no source is still open; the emitted frame is a
single control frame, and with no trigger the state is untouched. -/
theorem c6_crc_triggers (g w now : Nat) (s : MuxState) (h : s.canWrite = true) :
    ((maybeSendCrc g w now s).out ≠ s.out
      ↔ (now - s.lastMsgTime > g ∨ s.crcProcessedBytes > w ∨ s.streamsAlive = 0))
    ∧ ((now - s.lastMsgTime > g ∨ s.crcProcessedBytes > w ∨ s.streamsAlive = 0) →
        (maybeSendCrc g w now s).out
          = s.out ++ mkStreamCrcBuf (now - s.lastMsgTime) s.crc)
    ∧ (¬(now - s.lastMsgTime > g ∨ s.crcProcessedBytes > w ∨ s.streamsAlive = 0) →
        maybeSendCrc g w now s = s) := by
  rw [maybeSendCrc, if_neg (by rw [h]; simp)]
  by_cases htrig : now - s.lastMsgTime > g ∨ s.crcProcessedBytes > w ∨ s.streamsAlive = 0
  · rw [if_pos htrig]
    refine ⟨⟨fun _ => htrig, fun _ => ?_⟩, fun _ => rfl, fun hn => absurd htrig hn⟩
    intro heq
    have hlen := congrArg List.length heq
    simp [mkStreamCrcBuf, mkBuf8, mkBuf16le] at hlen
  · rw [if_neg htrig]
    exact ⟨⟨fun hne => absurd rfl hne, fun ht => absurd ht htrig⟩,
      fun ht => absurd ht htrig, fun _ => rfl⟩

/-- C6 witness: with zero sources alive the check fires and appends one
control frame. -/
theorem c6_crc_triggers_witness :
    (maybeSendCrc 60000 1500 5 (muxInit 0 0)).out
      = (muxInit 0 0).out ++ mkStreamCrcBuf 5 0 := by
  exact (c6_crc_triggers 60000 1500 5 (muxInit 0 0) rfl).2.1 (by decide)

/-- C2 counterexample: emitting or consuming a control frame does not
reset the running checksum to 0.  At a concrete state with accumulator
0, the multiplexer emits a control frame and its accumulator becomes the
checksum of that frame seeded with the old value, which is nonzero; the
demultiplexer likewise folds the consumed control frame into its
accumulator instead of resetting it. -/
theorem c2_counterexample :
    ((maybeSendCrc 60000 1500 5 (muxInit 0 0)).out ≠ (muxInit 0 0).out)
    ∧ (maybeSendCrc 60000 1500 5 (muxInit 0 0)).crc ≠ 0
    ∧ (parseChunksLoop (encodeChunk (Chunk.ctrl 5 0)) 0 []).2.1 ≠ 0 := by
  refine ⟨by decide, by decide, ?_⟩
  rw [parseChunksLoop_eq_some (encodeChunk (Chunk.ctrl 5 0)) 0 [] (Chunk.ctrl 5 0) (by decide)]
  rw [if_neg (by decide)]
  rw [show (encodeChunk (Chunk.ctrl 5 0)).drop (chunkBufSize (Chunk.ctrl 5 0)) = [] from rfl]
  rw [parseChunksLoop_nil]
  decide

/-- C2 amended: neither side ever resets the 16-bit accumulator.  On
emission the control frame carries the accumulator value from before the
frame (its own bytes excluded), and the accumulator is then the checksum
of the full frame bytes (checksum field included) seeded with the prior
value; the demultiplexer validates a control frame against its
accumulator before folding, then folds the full frame bytes seeded with
the prior value. -/
theorem c2_checksum_chaining (g w now : Nat) (s : MuxState) (h1 : s.canWrite = true)
    (h2 : now - s.lastMsgTime > g ∨ s.crcProcessedBytes > w ∨ s.streamsAlive = 0) :
    (maybeSendCrc g w now s).out = s.out ++ mkStreamCrcBuf (now - s.lastMsgTime) s.crc
    ∧ (maybeSendCrc g w now s).crc
        = crc16 (mkStreamCrcBuf (now - s.lastMsgTime) s.crc) s.crc
    ∧ (∀ (off c : Nat) (rest : List Nat) (q : List Chunk), c < 65536 →
        parseChunksLoop (encodeChunk (.ctrl off c) ++ rest) c q
          = parseChunksLoop rest (crc16 (encodeChunk (.ctrl off c)) c) q) := by
  rw [maybeSendCrc, if_neg (by rw [h1]; simp), if_pos h2]
  refine ⟨rfl, rfl, fun off c rest q hc => ?_⟩
  rw [parseChunksLoop_eq_some _ _ _ _ (streamChunkParser_encode_ctrl off c rest)]
  rw [if_neg (by simp [Chunk.streamId, Chunk.crcOf, Nat.mod_eq_of_lt hc])]
  rw [show chunkBufSize (Chunk.ctrl (off % 65536) (c % 65536)) = 5 from rfl]
  rw [show (5 : Nat) = (encodeChunk (.ctrl off c)).length from (encodeChunk_length_ctrl off c).symm]
  rw [List.drop_left, List.take_left]
  simp [Chunk.streamId]

/-- C2 amended witness: a concrete emission and a concrete consumption,
both chaining the accumulator. -/
theorem c2_checksum_chaining_witness :
    (maybeSendCrc 60000 1500 5 (muxInit 0 0)).crc = crc16 (mkStreamCrcBuf 5 0) 0
    ∧ parseChunksLoop (encodeChunk (.ctrl 5 0) ++ []) 0 []
      = parseChunksLoop [] (crc16 (encodeChunk (.ctrl 5 0)) 0) [] := by
  have h := c2_checksum_chaining 60000 1500 5 (muxInit 0 0) rfl (by decide)
  exact ⟨h.2.1, h.2.2 5 0 [] [] (by decide)⟩

/-- C9 counterexample: a one-byte buffer is too short to decode a
header, and the session does raise: the wrapped HeaderParseError is
re-thrown by parseBufferWrapped instead of being silently deferred. -/
theorem c9_counterexample :
    headParser [1] = none
    ∧ (demuxSession [1]).rethrown = some DexError.headerParse := by
  exact ⟨rfl, rfl⟩

/-- C9 amended: while awaiting the header, a nonempty buffered prefix
that is too short or malformed to decode a header consumes no bytes,
invokes neither the completion callback nor any sink error event and
creates no sinks, but the HeaderParseError is re-thrown to the caller
(the catch block matches neither of its two handled cases) rather than
silently swallowed; the buffered bytes stay intact so parsing resumes
when more input arrives. -/
theorem c9_short_header (buf : List Nat) (h0 : buf ≠ []) (h1 : headParser buf = none) :
    demuxSession buf = ⟨false, none, [], false, some .headerParse, buf⟩ := by
  rw [demuxSession, if_neg (by simpa using h0), h1]

/-- C9 amended witness. -/
theorem c9_short_header_witness :
    demuxSession [1] = ⟨false, none, [], false, some .headerParse, [1]⟩ := by
  exact c9_short_header [1] (by decide) (by decide)

/-- C4: an input whose decoded header checksum field disagrees with the
checksum computed over the header body surfaces the checksum-mismatch
error exactly once through the completion callback, creates no sinks
(so no per-stream error events are possible), and ends the input. -/
theorem c4_header_crc_mismatch (buf : List Nat) (head : HeadRec)
    (h0 : ¬buf.length = 0)
    (h1 : headParser buf = some head)
    (h2 : head.crc ≠ crc16 ((buf.take (head.headerLen - 2)).drop 5) 0) :
    demuxSession buf
      = ⟨false, some .crcValidation, [], true, none, buf.drop head.headerLen⟩ := by
  rw [demuxSession, if_neg h0, h1]
  dsimp only
  rw [if_pos h2]

/-- C4 witness: a 12-byte zero-stream header whose stored checksum 0
disagrees with the checksum of its body. -/
theorem c4_header_crc_mismatch_witness :
    demuxSession [1, 12, 0, 0, 0, 0, 9, 9, 9, 9, 0, 0]
      = ⟨false, some .crcValidation, [], true, none, []⟩ := by
  exact c4_header_crc_mismatch [1, 12, 0, 0, 0, 0, 9, 9, 9, 9, 0, 0]
    ⟨12, 0, [9, 9, 9, 9], [], 0⟩ (by decide) (by decide) (by decide)

theorem getD_set_self (l : List Bool) (i : Nat) (h : i < l.length) :
    (l.set i false).getD i false = false := by
  simp [List.getD_eq_getElem?_getD, List.getElem?_set, h]

/-- C8 counterexample: a one-source session whose only source finishes
at time 5 emits a control frame then, but the multiplexer never ends its
output stream, and later interval ticks emit further control frames
(three frames by time 2500), contradicting one final control frame
followed by ending the output. -/
theorem c8_counterexample :
    (muxRun 60000 1500 (muxInit 1 0)
        [MEvent.finishEv 0 5, MEvent.dataEv 0 [1] 2500]).outEnded = false
    ∧ (muxRun 60000 1500 (muxInit 1 0)
        [MEvent.finishEv 0 5, MEvent.dataEv 0 [1] 2500]).chunks.length = 3
    ∧ (muxRun 60000 1500 (muxInit 1 0) [MEvent.finishEv 0 5]).chunks.length = 1 := by
  decide

/-- C8 amended: when a source finishes it is marked closed (its
listeners detached); if it was the last open source the multiplexer
emits one control frame at that point, but it does not end its output
stream, and any later moment with no sources alive and writing still
allowed emits another control frame. -/
theorem c8_finish_behavior (g w i now : Nat) (s : MuxState)
    (hcw : s.canWrite = true) (hl : s.listening.getD i false = true)
    (halive : s.streamsAlive = 1) :
    (finishStep g w i now s).listening.getD i false = false
    ∧ (finishStep g w i now s).out
        = s.out ++ mkStreamCrcBuf (now - s.lastMsgTime) s.crc
    ∧ (finishStep g w i now s).outEnded = s.outEnded
    ∧ (∀ s2 : MuxState, s2.canWrite = true → s2.streamsAlive = 0 → ∀ t2 : Nat,
        (maybeSendCrc g w t2 s2).out = s2.out ++ mkStreamCrcBuf (t2 - s2.lastMsgTime) s2.crc) := by
  have hi : i < s.listening.length := getD_true_lt _ _ hl
  have hemit : ∀ s2 : MuxState, s2.canWrite = true → s2.streamsAlive = 0 → ∀ t2 : Nat,
      (maybeSendCrc g w t2 s2).out = s2.out ++ mkStreamCrcBuf (t2 - s2.lastMsgTime) s2.crc := by
    intro s2 h2 h0 t2
    rw [maybeSendCrc, if_neg (by rw [h2]; simp), if_pos (by omega)]
  rw [finishStep, if_neg (by rw [hl]; simp)]
  dsimp only [rawFinishStep]
  obtain ⟨e1, _, _, e4, _⟩ :=
    maybeSendCrc_effects g w now { s with streamsAlive := s.streamsAlive - 1 }
  refine ⟨?_, ?_, ?_, hemit⟩
  · show ((maybeSendCrc g w now { s with streamsAlive := s.streamsAlive - 1 }).listening.set
      i false).getD i false = false
    rw [e1]
    exact getD_set_self _ i hi
  · show (maybeSendCrc g w now { s with streamsAlive := s.streamsAlive - 1 }).out = _
    rw [hemit { s with streamsAlive := s.streamsAlive - 1 } hcw (by dsimp only; omega) now]
  · show (maybeSendCrc g w now { s with streamsAlive := s.streamsAlive - 1 }).outEnded = _
    rw [e4]

/-- C8 amended witness: the concrete one-source finish. -/
theorem c8_finish_behavior_witness :
    (finishStep 60000 1500 0 5 (muxInit 1 0)).listening.getD 0 false = false
    ∧ (finishStep 60000 1500 0 5 (muxInit 1 0)).out = [] ++ mkStreamCrcBuf 5 0
    ∧ (finishStep 60000 1500 0 5 (muxInit 1 0)).outEnded = false := by
  have h := c8_finish_behavior 60000 1500 0 5 (muxInit 1 0) rfl (by decide) (by decide)
  exact ⟨h.1, h.2.1, h.2.2.1⟩

theorem endAll_broadcastAll_ids (ids : List Nat) (e : DexError) :
    endAll (broadcastAll (ids.map (fun i => (i, emptySink))) e)
      = ids.map (fun i => (i, ⟨[], [e], true⟩)) := by
  simp only [endAll, broadcastAll, List.map_map]
  apply List.map_congr_left
  intro i _
  rfl

/-- C5: after the header has parsed, an input whose next control frame
carries a checksum that disagrees with the accumulated checksum makes
the demultiplexer broadcast the checksum-mismatch error as an error
event to every open sink, end all sinks, and end the input stream. -/
theorem c5_chunk_crc_broadcast (k t0 off bad : Nat) (good : List Chunk) (more : List Nat)
    (hk : k ≤ 254)
    (hg : goodChunks 0 good = true)
    (hbad : bad % 65536 ≠ crc16 ((good.map encodeChunk).flatten) 0) :
    demuxSession (muxHeader k t0
        ++ ((good.map encodeChunk).flatten ++ (encodeChunk (.ctrl off bad) ++ more)))
      = ⟨true, none,
          endAll (broadcastAll ((muxMetaRecs k).map (fun m => (m.streamId, emptySink)))
            DexError.crcValidation),
          true, none, encodeChunk (.ctrl off bad) ++ more⟩
    ∧ (endAll (broadcastAll ((muxMetaRecs k).map (fun m => (m.streamId, emptySink)))
        DexError.crcValidation)).length = k
    ∧ ∀ pr ∈ endAll (broadcastAll ((muxMetaRecs k).map (fun m => (m.streamId, emptySink)))
        DexError.crcValidation),
        pr.2.errs = [DexError.crcValidation] ∧ pr.2.ended = true := by
  refine ⟨?_, ?_, ?_⟩
  · rw [demuxSession_muxHeader k t0 _ hk, chunkStage]
    rw [parseChunksLoop_good good 0 [] _ hg]
    rw [parseChunksLoop_eq_some _ _ _ _ (streamChunkParser_encode_ctrl off bad more)]
    rw [if_pos ⟨rfl, fun heq => hbad (by simpa [Chunk.crcOf] using heq.symm)⟩]
  · rw [dict0_eq, endAll_broadcastAll_ids]
    simp [muxIds]
  · rw [dict0_eq, endAll_broadcastAll_ids]
    intro pr hpr
    simp only [List.mem_map] at hpr
    obtain ⟨i, _, rfl⟩ := hpr
    exact ⟨rfl, rfl⟩

/-- C5 witness: a one-stream session whose first control frame carries
checksum 9 while the accumulator is still 0. -/
theorem c5_chunk_crc_broadcast_witness :
    demuxSession (muxHeader 1 0 ++ ([] ++ (encodeChunk (.ctrl 0 9) ++ [])))
      = ⟨true, none,
          endAll (broadcastAll ((muxMetaRecs 1).map (fun m => (m.streamId, emptySink)))
            DexError.crcValidation),
          true, none, encodeChunk (.ctrl 0 9) ++ []⟩ := by
  exact (c5_chunk_crc_broadcast 1 0 0 9 [] [] (by decide) (by decide) (by decide)).1

theorem mem_dataPart_of_mem (sid off : Nat) (p : List Nat) (chs : List Chunk)
    (h : Chunk.dataC sid off p ∈ chs) :
    Chunk.dataC (sid % 256) (off % 65536) p ∈ dataPart chs := by
  induction chs with
  | nil => simp at h
  | cons ch chs ih =>
    rcases List.mem_cons.mp h with h2 | h2
    · subst h2
      rw [dataPart_cons_dataC]
      simp
    · cases ch with
      | ctrl o cf => rw [dataPart_cons_ctrl]; exact ih h2
      | dataC s2 o2 p2 =>
        rw [dataPart_cons_dataC]
        exact List.mem_cons_of_mem _ (ih h2)

theorem deliverQueue_errs (q : List Chunk) : ∀ d : List (Nat × SinkState),
    (∀ pr ∈ d, pr.2.errs = ([] : List DexError)) →
    ∀ pr ∈ (deliverQueue q d).1, pr.2.errs = [] := by
  induction q with
  | nil => intro d hd; exact hd
  | cons ch q ih =>
    intro d hd
    by_cases hz : ch.streamId = 0
    · rw [deliverQueue, if_pos hz]
      exact ih d hd
    · cases hl : lookupSink d ch.streamId with
      | none =>
        rw [deliverQueue, if_neg hz, hl]
        exact hd
      | some sk =>
        rw [deliverQueue, if_neg hz, hl]
        apply ih
        intro pr hpr
        simp only [updateSink, List.mem_map] at hpr
        obtain ⟨kv, hkv, rfl⟩ := hpr
        by_cases hc : kv.1 = ch.streamId
        · simp only [if_pos hc]
          exact hd kv hkv
        · simp only [if_neg hc]
          exact hd kv hkv

/-- C10: a well-formed data frame whose nonzero stream id byte is not
among the ids declared in the header makes the delivery step look up an
undefined sink and die with the uncaught TypeError at write time; the
error is not reported through the completion callback and no sink
receives an error event. -/
theorem c10_unknown_stream_id (k t0 : Nat) (chs : List Chunk) (sid off : Nat) (p : List Nat)
    (hk : k ≤ 254)
    (hg : goodChunks 0 chs = true)
    (hmem : Chunk.dataC sid off p ∈ chs)
    (hbig : k < sid % 256) :
    (demuxSession (muxHeader k t0 ++ (chs.map encodeChunk).flatten)).rethrown
        = some DexError.typeError
    ∧ (demuxSession (muxHeader k t0 ++ (chs.map encodeChunk).flatten)).cbErr = none
    ∧ (demuxSession (muxHeader k t0 ++ (chs.map encodeChunk).flatten)).ready = true
    ∧ ∀ pr ∈ (demuxSession (muxHeader k t0 ++ (chs.map encodeChunk).flatten)).sinks,
        pr.2.errs = [] := by
  rw [demuxSession_muxHeader k t0 _ hk, chunkStage]
  have hloop := parseChunksLoop_good chs 0 [] [] hg
  rw [List.append_nil, parseChunksLoop_nil] at hloop
  rw [hloop]
  dsimp only
  simp only [List.nil_append]
  have hsid0 : sid % 256 ≠ 0 := by omega
  have hnone : lookupSink ((muxMetaRecs k).map (fun m => (m.streamId, emptySink)))
      (Chunk.dataC (sid % 256) (off % 65536) p).streamId = none := by
    rw [dict0_eq, Chunk.streamId, lookupSink_const,
      if_neg (fun hmm => by have := (mem_muxIds k (sid % 256)).mp hmm; omega)]
  have htype := deliverQueue_typeError (dataPart chs)
    ((muxMetaRecs k).map (fun m => (m.streamId, emptySink)))
    ⟨Chunk.dataC (sid % 256) (off % 65536) p, mem_dataPart_of_mem sid off p chs hmem,
      by simpa [Chunk.streamId] using hsid0, hnone⟩
  refine ⟨htype, trivial, trivial, ?_⟩
  apply deliverQueue_errs
  intro pr hpr
  simp only [List.mem_map] at hpr
  obtain ⟨m, _, rfl⟩ := hpr
  rfl

/-- C10 witness: one declared stream, one data frame with stream id 7. -/
theorem c10_unknown_stream_id_witness :
    (demuxSession (muxHeader 1 0
        ++ ([Chunk.dataC 7 0 [42]].map encodeChunk).flatten)).rethrown
      = some DexError.typeError := by
  exact (c10_unknown_stream_id 1 0 [Chunk.dataC 7 0 [42]] 7 0 [42]
    (by decide) (by decide) (by decide) (by decide)).1

theorem maybeSendCrc_c7 (w now : Nat) (s : MuxState)
    (hb : now - s.lastMsgTime ≤ 65535) (ho : ∀ o ∈ s.offsets, o ≤ 65535) :
    (∀ o ∈ (maybeSendCrc 60000 w now s).offsets, o ≤ 65535)
    ∧ ((maybeSendCrc 60000 w now s).lastMsgTime = now
        ∨ (maybeSendCrc 60000 w now s).lastMsgTime = s.lastMsgTime)
    ∧ (maybeSendCrc 60000 w now s).nextTick = s.nextTick
    ∧ (maybeSendCrc 60000 w now s).canWrite = s.canWrite
    ∧ (maybeSendCrc 60000 w now s).listening = s.listening := by
  rw [maybeSendCrc]
  by_cases hcw : s.canWrite = false
  · rw [if_pos hcw]
    exact ⟨ho, Or.inr rfl, rfl, rfl, rfl⟩
  · rw [if_neg hcw]
    dsimp only
    by_cases htrig : now - s.lastMsgTime > 60000 ∨ s.crcProcessedBytes > w ∨ s.streamsAlive = 0
    · rw [if_pos htrig]
      refine ⟨?_, Or.inl rfl, rfl, rfl, rfl⟩
      intro o hmo
      rcases List.mem_append.mp hmo with hm | hm
      · exact ho o hm
      · simp only [List.mem_singleton] at hm
        omega
    · rw [if_neg htrig]
      exact ⟨ho, Or.inr rfl, rfl, rfl, rfl⟩

theorem maybeSendCrc_noWrite (g w now : Nat) (s : MuxState) (h : s.canWrite = false) :
    maybeSendCrc g w now s = s := by
  rw [maybeSendCrc, if_pos h]

theorem applyTicks_c7 (w : Nat) : ∀ (n te : Nat) (s : MuxState),
    (s.canWrite = true → s.lastMsgTime ≤ s.nextTick ∧ s.nextTick ≤ s.lastMsgTime + 61000) →
    (∀ o ∈ s.offsets, o ≤ 65535) →
    s.lastMsgTime ≤ te →
    (n = 0 ∨ s.nextTick + 1000 * (n - 1) ≤ te) →
    ((applyTicks 60000 w n s).canWrite = true →
      (applyTicks 60000 w n s).lastMsgTime ≤ (applyTicks 60000 w n s).nextTick
      ∧ (applyTicks 60000 w n s).nextTick ≤ (applyTicks 60000 w n s).lastMsgTime + 61000)
    ∧ (∀ o ∈ (applyTicks 60000 w n s).offsets, o ≤ 65535)
    ∧ (applyTicks 60000 w n s).lastMsgTime ≤ te
    ∧ (applyTicks 60000 w n s).nextTick = s.nextTick + 1000 * n
    ∧ (applyTicks 60000 w n s).canWrite = s.canWrite := by
  intro n
  induction n with
  | zero =>
    intro te s h1 h2 h3 _
    exact ⟨h1, h2, h3, by simp [applyTicks], rfl⟩
  | succ n ih =>
    intro te s h1 h2 h3 h4
    have hτ : s.nextTick ≤ te := by
      rcases h4 with h4 | h4
      · omega
      · omega
    rw [applyTicks]
    by_cases hcw : s.canWrite = true
    · obtain ⟨ht1, ht2⟩ := h1 hcw
      have hd : s.nextTick - s.lastMsgTime ≤ 65535 := by omega
      obtain ⟨m1, m2, m3, m4, _⟩ := maybeSendCrc_c7 w s.nextTick s hd h2
      have hstep := ih te { maybeSendCrc 60000 w s.nextTick s with
          nextTick := (maybeSendCrc 60000 w s.nextTick s).nextTick + 1000 } ?_ ?_ ?_ ?_
      · obtain ⟨g1, g2, g3, g4, g5⟩ := hstep
        refine ⟨g1, g2, g3, ?_, ?_⟩
        · rw [g4]
          dsimp only
          rw [m3]
          ring
        · rw [g5]
          dsimp only
          rw [m4]
      · intro hcw2
        dsimp only at hcw2 ⊢
        rw [m3]
        rcases m2 with hm | hm
        · rw [hm]
          omega
        · rw [hm]
          by_cases hEq : s.lastMsgTime = s.nextTick
          · omega
          · have hnt : ¬(s.nextTick - s.lastMsgTime > 60000 ∨ s.crcProcessedBytes > w
                ∨ s.streamsAlive = 0) := by
              by_contra hcon
              have hlast : (maybeSendCrc 60000 w s.nextTick s).lastMsgTime = s.nextTick := by
                rw [maybeSendCrc, if_neg (by rw [hcw]; simp), if_pos hcon]
              rw [hm] at hlast
              exact hEq hlast
            push_neg at hnt
            omega
      · exact m1
      · dsimp only
        rcases m2 with hm | hm
        · rw [hm]; exact hτ
        · rw [hm]; exact h3
      · dsimp only
        rw [m3]
        rcases n with - | n2
        · exact Or.inl rfl
        · right
          simp only [Nat.add_sub_cancel]
          have : s.nextTick + 1000 * (n2 + 1) ≤ te := by
            rcases h4 with h4 | h4
            · omega
            · simpa using h4
          omega
    · have hcwf : s.canWrite = false := by
        cases hcv : s.canWrite
        · rfl
        · exact absurd hcv hcw
      rw [maybeSendCrc_noWrite _ _ _ _ hcwf]
      have hstep := ih te { s with nextTick := s.nextTick + 1000 } ?_ ?_ ?_ ?_
      · obtain ⟨g1, g2, g3, g4, g5⟩ := hstep
        refine ⟨g1, g2, g3, ?_, ?_⟩
        · rw [g4]; dsimp only; ring
        · rw [g5]
      · intro hcw2
        dsimp only at hcw2
        exact absurd hcw2 (by rw [hcwf]; simp)
      · exact h2
      · exact h3
      · dsimp only
        rcases n with - | n2
        · exact Or.inl rfl
        · right
          simp only [Nat.add_sub_cancel]
          have : s.nextTick + 1000 * (n2 + 1) ≤ te := by
            rcases h4 with h4 | h4
            · omega
            · simpa using h4
          omega

theorem runTicks_c7 (w te t : Nat) (s : MuxState) (h : C7Inv t s) (hte : t ≤ te) :
    C7Inv te (runTicks 60000 w te s) ∧ te < (runTicks 60000 w te s).nextTick := by
  obtain ⟨h1, h2, h3⟩ := h
  have hcond : tickCount s te = 0
      ∨ s.nextTick + 1000 * (tickCount s te - 1) ≤ te := by
    rw [tickCount]
    by_cases hnt : s.nextTick ≤ te
    · rw [if_pos hnt]
      right
      simp only [Nat.add_sub_cancel]
      omega
    · rw [if_neg hnt]
      exact Or.inl rfl
  obtain ⟨g1, g2, g3, g4, _⟩ := applyTicks_c7 w (tickCount s te) te s h1 h3 (by omega) hcond
  refine ⟨⟨g1, g3, g2⟩, ?_⟩
  show te < (applyTicks 60000 w (tickCount s te) s).nextTick
  rw [g4, tickCount]
  by_cases hnt : s.nextTick ≤ te
  · rw [if_pos hnt]
    omega
  · rw [if_neg hnt]
    omega

theorem chunkFrames_offsets (c : List Nat) (sid off : Nat) :
    ∀ ch ∈ chunkFrames c sid off, ch.offsetOf = off ∨ ch.offsetOf = 0 := by
  induction c, sid, off using chunkFrames.induct with
  | case1 c sid off h ih =>
    rw [chunkFrames, dif_pos h]
    intro ch hch
    rcases List.mem_append.mp hch with hm | hm
    · exact ih ch hm
    · simp only [List.mem_singleton] at hm
      subst hm
      exact Or.inr rfl
  | case2 c sid off h =>
    rw [chunkFrames, dif_neg h]
    intro ch hch
    simp only [List.mem_singleton] at hch
    subst hch
    exact Or.inl rfl

theorem dataStep_c7 (w i te : Nat) (payload : List Nat) (s : MuxState)
    (h1 : s.canWrite = true → s.lastMsgTime ≤ s.nextTick ∧ s.nextTick ≤ s.lastMsgTime + 61000)
    (h2 : ∀ o ∈ s.offsets, o ≤ 65535)
    (h3 : s.lastMsgTime ≤ te)
    (h4 : te < s.nextTick) :
    C7Inv te (dataStep 60000 w i payload te s) := by
  by_cases hl : s.listening.getD i false = false
  · rw [dataStep, if_pos hl]
    exact ⟨h1, h3, h2⟩
  · by_cases hcw : s.canWrite = true
    · rw [dataStep_eq 60000 w i payload te s (by revert hl; cases s.listening.getD i false <;> simp)
        hcw]
      obtain ⟨ht1, ht2⟩ := h1 hcw
      have hoff2 : ∀ o ∈ (dataWriteState i payload te s).offsets, o ≤ 65535 := by
        intro o hmo
        rcases List.mem_append.mp hmo with hm | hm
        · exact h2 o hm
        · simp only [List.mem_map] at hm
          obtain ⟨ch, hch, rfl⟩ := hm
          rcases chunkFrames_offsets payload (i + streamIdOffset) (te - s.lastMsgTime) ch hch
            with ho | ho <;> rw [ho] <;> omega
      have hb0 : te - (dataWriteState i payload te s).lastMsgTime ≤ 65535 := by
        simp [dataWriteState]
      obtain ⟨m1, m2, m3, m4, _⟩ :=
        maybeSendCrc_c7 w te (dataWriteState i payload te s) hb0 hoff2
      refine ⟨?_, ?_, m1⟩
      · intro _
        rw [m3]
        have hlast : (maybeSendCrc 60000 w te (dataWriteState i payload te s)).lastMsgTime
            = te := by
          rcases m2 with hm | hm
          · exact hm
          · rw [hm]; rfl
        rw [hlast]
        simp only [dataWriteState]
        omega
      · rcases m2 with hm | hm
        · rw [hm]
        · rw [hm]; exact le_of_eq rfl
    · have hcwf : s.canWrite = false := by
        cases hcv : s.canWrite
        · rfl
        · exact absurd hcv hcw
      rw [dataStep, if_neg hl, if_pos hcwf]
      exact ⟨h1, h3, h2⟩

theorem finishStep_c7 (w i te : Nat) (s : MuxState)
    (h1 : s.canWrite = true → s.lastMsgTime ≤ s.nextTick ∧ s.nextTick ≤ s.lastMsgTime + 61000)
    (h2 : ∀ o ∈ s.offsets, o ≤ 65535)
    (h3 : s.lastMsgTime ≤ te)
    (h4 : te < s.nextTick) :
    C7Inv te (finishStep 60000 w i te s) := by
  by_cases hl : s.listening.getD i false = false
  · rw [finishStep, if_pos hl]
    exact ⟨h1, h3, h2⟩
  · rw [finishStep, if_neg hl]
    dsimp only [rawFinishStep]
    by_cases hcw : s.canWrite = true
    · obtain ⟨ht1, ht2⟩ := h1 hcw
      have hb0 : te - ({ s with streamsAlive := s.streamsAlive - 1 } : MuxState).lastMsgTime
          ≤ 65535 := by
        dsimp only
        omega
      obtain ⟨m1, m2, m3, m4, _⟩ :=
        maybeSendCrc_c7 w te { s with streamsAlive := s.streamsAlive - 1 } hb0 h2
      refine ⟨?_, ?_, m1⟩
      · intro _
        dsimp only
        rw [m3]
        rcases m2 with hm | hm
        · rw [hm]
          dsimp only
          omega
        · rw [hm]
          dsimp only
          omega
      · dsimp only
        rcases m2 with hm | hm
        · rw [hm]
        · rw [hm]
          exact h3
    · have hcwf : s.canWrite = false := by
        cases hcv : s.canWrite
        · rfl
        · exact absurd hcv hcw
      rw [maybeSendCrc_noWrite 60000 w te { s with streamsAlive := s.streamsAlive - 1 }
        (by dsimp only; exact hcwf)]
      exact ⟨fun hcon => absurd hcon (by dsimp only; rw [hcwf]; simp), h3, h2⟩

theorem rawFinish_fold_noWrite (w te : Nat) (l : List Nat) : ∀ s : MuxState,
    s.canWrite = false →
    (l.foldl (fun acc _ => rawFinishStep 60000 w te acc) s).offsets = s.offsets
    ∧ (l.foldl (fun acc _ => rawFinishStep 60000 w te acc) s).lastMsgTime = s.lastMsgTime
    ∧ (l.foldl (fun acc _ => rawFinishStep 60000 w te acc) s).canWrite = false := by
  induction l with
  | nil => intro s h; exact ⟨rfl, rfl, h⟩
  | cons x l ih =>
    intro s h
    have hstep : rawFinishStep 60000 w te s = { s with streamsAlive := s.streamsAlive - 1 } := by
      rw [rawFinishStep, maybeSendCrc_noWrite 60000 w te { s with streamsAlive := s.streamsAlive - 1 }
        (by dsimp only; exact h)]
    rw [List.foldl_cons, hstep]
    exact ih _ h

theorem stopStep_c7 (w te : Nat) (s : MuxState)
    (h2 : ∀ o ∈ s.offsets, o ≤ 65535)
    (h3 : s.lastMsgTime ≤ te) :
    C7Inv te (stopStep 60000 w te s) := by
  rw [stopStep]
  obtain ⟨f1, f2, f3⟩ := rawFinish_fold_noWrite w te
    (List.range ({ s with canWrite := false, outEnded := true } : MuxState).listening.length)
    { s with canWrite := false, outEnded := true } rfl
  refine ⟨fun hcon => ?_, ?_, ?_⟩
  · rw [show ({ (List.range ({ s with canWrite := false, outEnded := true } :
      MuxState).listening.length).foldl (fun acc _ => rawFinishStep 60000 w te acc)
      { s with canWrite := false, outEnded := true } with
      listening := ((List.range ({ s with canWrite := false, outEnded := true } :
        MuxState).listening.length).foldl (fun acc _ => rawFinishStep 60000 w te acc)
        { s with canWrite := false, outEnded := true }).listening.map
          (fun _ => false) } : MuxState).canWrite = false from f3] at hcon
    exact absurd hcon (by simp)
  · show (_ : MuxState).lastMsgTime ≤ te
    rw [show (_ : MuxState).lastMsgTime = _ from f2]
    exact h3
  · show ∀ o ∈ (_ : MuxState).offsets, o ≤ 65535
    rw [show (_ : MuxState).offsets = _ from f1]
    exact h2

theorem muxRun_c7 (w : Nat) : ∀ (es : List MEvent) (t : Nat) (s : MuxState),
    validFrom t es = true → C7Inv t s →
    ∀ o ∈ (muxRun 60000 w s es).offsets, o ≤ 65535 := by
  intro es
  induction es with
  | nil =>
    intro t s _ h
    exact h.2.2
  | cons e es ih =>
    intro t s hv h
    simp only [validFrom, Bool.and_eq_true, decide_eq_true_eq] at hv
    obtain ⟨hte, hv2⟩ := hv
    rw [muxRun_cons]
    apply ih e.time
    · exact hv2
    · obtain ⟨hrinv, hnt⟩ := runTicks_c7 w e.time t s h hte
      obtain ⟨r1, r2, r3⟩ := hrinv
      cases e with
      | dataEv i p te =>
        exact dataStep_c7 w i te p (runTicks 60000 w te s) r1 r3 r2 hnt
      | finishEv i te =>
        exact finishStep_c7 w i te (runTicks 60000 w te s) r1 r3 r2 hnt
      | stopEv te =>
        exact stopStep_c7 w te (runTicks 60000 w te s) r3 r2

/-- C7: with maxDataGap = 60000 and the periodic one-second checksum
tick running, no offsetMillis value written into any emitted frame,
data or control, ever exceeds 65535, over every time-ordered event trace
and however long every source stays silent. -/
theorem c7_offset_bound (w k t0 : Nat) (es : List MEvent)
    (hv : validFrom t0 es = true) :
    ∀ o ∈ (muxRun 60000 w (muxInit k t0) es).offsets, o ≤ 65535 := by
  apply muxRun_c7 w es t0 (muxInit k t0) hv
  refine ⟨fun _ => ?_, le_refl _, ?_⟩
  · simp [muxInit]
  · intro o hmo
    simp [muxInit] at hmo

/-- C7 witness: a source that stays silent for 1500 ms and then
finishes; the control frame emitted then carries offset 1500. -/
theorem c7_offset_bound_witness :
    (muxRun 60000 1500 (muxInit 1 0) [MEvent.finishEv 0 1500]).offsets = [1500]
    ∧ (1500 : Nat) ≤ 65535 := by
  refine ⟨by decide, ?_⟩
  exact c7_offset_bound 1500 1 0 [MEvent.finishEv 0 1500] (by decide) 1500 (by decide)
